import Mathlib

/-!
Verification development for the grammax parser infrastructure.

The Rust sources are shallowly embedded as executable Lean definitions:

* src/words.rs   — the closed matcher set (`Matcher`, `matchesM`, `repLoop`);
  input strings are modelled as lists of characters and positions count
  characters (the Rust code counts bytes, which coincides on the properties
  studied here); a repeat range is modelled by the pair (mn, mx) that
  `Repeat::matches` derives from the range bounds, an unbounded end being
  the huge-but-finite usize::MAX.
* src/tree.rs    — the hash-consing arena (`GreenNode`, `TreeAlloc`, `alloc`);
  the std DefaultHasher enters only as an explicit hash-function parameter.
* src/parser.rs  — edit validation (`receiveEdits`); a Rust panic is the
  explicit `EditOutcome.panic` value.
* src/grammar.rs — grammar expressions (`GrammarNode`), normalized nodes
  (`GN`), the normalizer (`normGo`/`refExpand`/`helper`; rule identity by
  function pointer is modelled as a `Nat` handle resolved by an environment
  `Nat → GrammarNode`), the nullability fixpoint (`nullPass`, `nullableVec`),
  the non-consuming-call computation (`getCalls`), the cycle DFS
  (`findCycle`, `goCalls`, `cycleScan`, `undecidableRuleF`) and grammar
  construction (`grammarNew`).  Recursion through rule expansion is bounded
  by an explicit fuel; a `none` result signals exhausted fuel (or the
  unreachable Rust panic inside the normalizer), never a Rust return value.
-/

/-- Closed set of matchers from src/words.rs: literal text, single char,
start-of-input, end-of-input, alternative, sequence and bounded repeat. -/
inductive Matcher where
  | str (s : List Char)
  | chr (c : Char)
  | StartOfInput
  | EndOfInput
  | Alternative (a b : Matcher)
  | Sequence (a b : Matcher)
  | Repeat (m : Matcher) (mn mx : Nat)

/-- Matcher::is_nullable from src/words.rs, variant by variant.  Note that
Repeat::is_nullable only inspects the lower bound and the inner matcher. -/
def Matcher.isNullable : Matcher → Bool
  | .str s => s.length == 0
  | .chr _ => false
  | .EndOfInput => true
  | .StartOfInput => true
  | .Alternative a b => a.isNullable || b.isNullable
  | .Sequence a b => a.isNullable && b.isNullable
  | .Repeat m mn _ => mn == 0 || m.isNullable

/-- The while-loop of Repeat::matches: run the inner matcher (given as the
already-instantiated function `mm`) as long as it succeeds and the count is
below the budget (the derived upper bound); the state after a failed attempt
is kept, exactly as the Rust loop leaves `state` mutated. -/
def repLoop (mm : Nat → Bool × Nat) : Nat → Nat → Nat × Nat
  | 0, pos => (0, pos)
  | b + 1, pos =>
    let r := mm pos
    if r.1 then
      let rest := repLoop mm b r.2
      (rest.1 + 1, rest.2)
    else (0, r.2)

/-- Matcher::matches from src/words.rs over an input and a position,
returning the success flag together with the new position (the Rust code
mutates `state.position`). -/
def matchesM : Matcher → List Char → Nat → Bool × Nat
  | .str s, input, pos =>
    let endPos := pos + s.length
    if endPos ≤ input.length && (input.drop pos).take s.length == s then (true, endPos)
    else (false, pos)
  | .chr c, input, pos =>
    match input[pos]? with
    | some nc => if nc = c then (true, pos + 1) else (false, pos)
    | none => (false, pos)
  | .EndOfInput, input, pos => (decide (pos ≥ input.length), pos)
  | .StartOfInput, _, pos => (decide (pos = 0), pos)
  | .Alternative a b, input, pos =>
    let r := matchesM a input pos
    if r.1 then (true, r.2) else matchesM b input pos
  | .Sequence a b, input, pos =>
    let r := matchesM a input pos
    if r.1 then matchesM b input r.2 else (false, r.2)
  | .Repeat m mn mx, input, pos =>
    let r := repLoop (matchesM m input) mx pos
    if mn ≤ r.1 then (true, r.2) else (false, pos)

/-- Well-formed repeat bounds: every Repeat node satisfies mn ≤ mx (every
range the Rust API can build except an empty one such as 5..=2). -/
def wfRanges : Matcher → Bool
  | .str _ => true
  | .chr _ => true
  | .EndOfInput => true
  | .StartOfInput => true
  | .Alternative a b => wfRanges a && wfRanges b
  | .Sequence a b => wfRanges a && wfRanges b
  | .Repeat m mn mx => (mn ≤ mx) && wfRanges m

/-- GreenNode from src/tree.rs: a rule tag plus ordered child identifiers
(the stored node carries no width and no absolute position). -/
structure GreenNode where
  rule_id : Nat
  children : List Nat
deriving DecidableEq

/-- TreeAlloc from src/tree.rs: the append-only node arena plus the
hash-to-bucket dedup map (the DashMap is modelled as an association list). -/
structure TreeAlloc where
  nodes : List GreenNode
  dedup : List (Nat × List Nat)
deriving DecidableEq

/-- Bucket lookup in the dedup map; a missing key is the empty bucket
(in Rust the scan is simply skipped). -/
def bucketGet (d : List (Nat × List Nat)) (h : Nat) : List Nat :=
  match d with
  | [] => []
  | (k, b) :: rest => if k = h then b else bucketGet rest h

/-- The entry(hash).or_default().push(idx) update of the dedup map. -/
def bucketPush (d : List (Nat × List Nat)) (h : Nat) (idx : Nat) : List (Nat × List Nat) :=
  match d with
  | [] => [(h, [idx])]
  | (k, b) :: rest => if k = h then (k, b ++ [idx]) :: rest else (k, b) :: bucketPush rest h idx

/-- TreeAlloc::alloc from src/tree.rs: hash the candidate node, scan its
bucket comparing by full structural equality, return the existing identifier
on a hit, otherwise append the node and register it.  The hash function is
an explicit parameter standing for std DefaultHasher. -/
def alloc (hashF : GreenNode → Nat) (a : TreeAlloc) (rule_id : Nat) (children : List Nat) :
    Nat × TreeAlloc :=
  let node : GreenNode := ⟨rule_id, children⟩
  let h := hashF node
  match (bucketGet a.dedup h).find? (fun idx => a.nodes.getD idx ⟨0, []⟩ == node) with
  | some idx => (idx, a)
  | none =>
    let idx := a.nodes.length
    (idx, ⟨a.nodes ++ [node], bucketPush a.dedup h idx⟩)

/-- Arena well-formedness: every index registered in some bucket points into
the node vector (Rust indexes nodes[idx] unchecked). -/
def wfArena (a : TreeAlloc) : Prop :=
  ∀ k b, (k, b) ∈ a.dedup → ∀ idx, idx ∈ b → idx < a.nodes.length

/-- Span from src/utils.rs; the field named end in Rust is called stop here. -/
structure Span where
  start : Nat
  stop : Nat
deriving DecidableEq

/-- Edit operations from src/parser.rs; text is a list of characters. -/
inductive Edit where
  | Update (span : Span) (new_text : List Char)
  | Insert (position : Nat) (new_text : List Char)
  | Delete (span : Span)
deriving DecidableEq

/-- ParserError from src/parser.rs (the lost-channel payload is dropped). -/
inductive ParserError where
  | LostConnection
  | SpanOutOfBounds (expected : Span) (actual : Span)
  | PositionOutOfBounds (expected : Span) (actual : Nat)
deriving DecidableEq

/-- Outcome of one applied edit: the updated buffer, an ordinary error value
leaving the buffer unchanged, or a Rust panic. -/
inductive EditOutcome where
  | ok (text : List Char)
  | err (e : ParserError) (text : List Char)
  | panic
deriving DecidableEq

/-- String::replace_range(start..stop, repl): panics (none) unless
start ≤ stop ≤ length. -/
def replaceRange (text : List Char) (start stop : Nat) (repl : List Char) :
    Option (List Char) :=
  if start ≤ stop ∧ stop ≤ text.length then
    some (text.take start ++ repl ++ text.drop stop)
  else none

/-- String::insert_str(position, repl): panics (none) unless
position ≤ length. -/
def insertStr (text : List Char) (position : Nat) (repl : List Char) :
    Option (List Char) :=
  if position ≤ text.length then some (text.take position ++ repl ++ text.drop position)
  else none

/-- Parser::is_valid_span from src/parser.rs: only the end of the span is
compared with the buffer length. -/
def isValidSpan (text : List Char) (span : Span) : Option ParserError :=
  if span.stop ≤ text.length then none
  else some (.SpanOutOfBounds span ⟨0, text.length⟩)

/-- Parser::is_valid_position from src/parser.rs. -/
def isValidPosition (text : List Char) (position : Nat) : Option ParserError :=
  if position ≤ text.length then none
  else some (.PositionOutOfBounds ⟨0, text.length⟩ position)

/-- The edit-application part of Parser::receive_edits from src/parser.rs:
validate the received edit against the current buffer, then apply it; on a
validation error the buffer is returned unchanged.  The channel receive
itself is outside this model. -/
def receiveEdits (edit : Edit) (text : List Char) : EditOutcome :=
  match edit with
  | .Update span new_text =>
    match isValidSpan text span with
    | some e => .err e text
    | none =>
      match replaceRange text span.start span.stop new_text with
      | some t => .ok t
      | none => .panic
  | .Insert position new_text =>
    match isValidPosition text position with
    | some e => .err e text
    | none =>
      match insertStr text position new_text with
      | some t => .ok t
      | none => .panic
  | .Delete span =>
    match isValidSpan text span with
    | some e => .err e text
    | none =>
      match replaceRange text span.start span.stop [] with
      | some t => .ok t
      | none => .panic

/-- Modelled from the spec: the green-with-width node of spec section 4.5;
src/tree.rs declares a GreenNode without width and a RedNode whose
child-construction code is absent from the sources, so the red overlay is
taken from the spec contract. -/
structure SpecGreenNode where
  tag : Nat
  width : Nat
  children : List Nat

/-- Modelled from the spec: a transient red node, an owned parent chain,
an absolute offset, and the green identifier it annotates. -/
inductive RedNode where
  | mk (parent : Option RedNode) (offset : Nat) (green : Nat)

/-- Parent component of a red node. -/
def RedNode.parentOf : RedNode → Option RedNode
  | .mk p _ _ => p

/-- Offset component of a red node. -/
def RedNode.offsetOf : RedNode → Nat
  | .mk _ o _ => o

/-- Green identifier component of a red node. -/
def RedNode.greenOf : RedNode → Nat
  | .mk _ _ g => g

/-- Modelled from the spec: the root red node sits at offset 0 with no
parent. -/
def redRoot (root : Nat) : RedNode := .mk none 0 root

/-- Width of a green node looked up in a spec arena (a list of nodes
indexed by identifier). -/
def widthOf (arena : List SpecGreenNode) (id : Nat) : Nat :=
  (arena.getD id ⟨0, 0, []⟩).width

/-- Modelled from the spec: the running sum of the widths of the first i
children, computed by the left-to-right scan an implementation performs. -/
def precWidth (arena : List SpecGreenNode) : List Nat → Nat → Nat
  | _, 0 => 0
  | [], _ + 1 => 0
  | c :: cs, i + 1 => widthOf arena c + precWidth arena cs i

/-- Modelled from the spec: the child red node at index i under a red node:
offset = parent offset + widths of the preceding siblings, green = that
child's id, parent = the current node. -/
def redChild (arena : List SpecGreenNode) (r : RedNode) (i : Nat) : RedNode :=
  let g := arena.getD r.greenOf ⟨0, 0, []⟩
  .mk (some r) (r.offsetOf + precWidth arena g.children i) (g.children.getD i 0)

/-- Normalized grammar nodes, the crate-private _GrammarNode of
src/grammar.rs: terminals, n-ary choice and sequence, a tagged rule body and
a back-reference (Mu) into the rule table. -/
inductive GN where
  | Terminal (m : Matcher)
  | Choice (cs : List GN)
  | Sequence (cs : List GN)
  | Tagged (idx : Nat) (inner : GN)
  | Mu (idx : Nat)

/-- Default used where Rust would index the rule table unchecked. -/
def dfltGN : GN := .Terminal .EndOfInput

/-- Source-level grammar expressions, GrammarNode of src/grammar.rs.  The
Rust Reference carries a rule function pointer; here the pointer is a Nat
handle interpreted by an environment Nat → GrammarNode. -/
inductive GrammarNode where
  | Terminal (m : Matcher)
  | Choice (cs : List GrammarNode)
  | Sequence (cs : List GrammarNode)
  | Reference (r : Nat) (name : String)
  | Optional (g : GrammarNode)
  | Some (g : GrammarNode)
  | Many (g : GrammarNode)

mutual
/-- Grammar::is_nullable from src/grammar.rs over a vector of per-rule
nullability flags (Mu reads the referenced flag). -/
def isNullableN : GN → List Bool → Bool
  | .Terminal m, _ => m.isNullable
  | .Choice cs, ns => anyNullable cs ns
  | .Sequence cs, ns => allNullable cs ns
  | .Tagged _ inner, ns => isNullableN inner ns
  | .Mu idx, ns => ns.getD idx false

/-- The iter().any of the Choice arm of Grammar::is_nullable. -/
def anyNullable : List GN → List Bool → Bool
  | [], _ => false
  | c :: cs, ns => isNullableN c ns || anyNullable cs ns

/-- The iter().all of the Sequence arm of Grammar::is_nullable. -/
def allNullable : List GN → List Bool → Bool
  | [], _ => true
  | c :: cs, ns => isNullableN c ns && allNullable cs ns
end

mutual
/-- Grammar::get_non_consuming_calls from src/grammar.rs: rule indices
reachable from a node without consuming input. -/
def getCalls : GN → List Bool → List Nat
  | .Terminal _, _ => []
  | .Choice cs, ns => choiceCalls cs ns
  | .Sequence cs, ns => seqCalls cs ns
  | .Tagged _ inner, ns => getCalls inner ns
  | .Mu idx, _ => [idx]

/-- Calls of a Choice: every branch contributes, whatever its nullability. -/
def choiceCalls : List GN → List Bool → List Nat
  | [], _ => []
  | c :: cs, ns => getCalls c ns ++ choiceCalls cs ns

/-- Calls of a Sequence: scan left to right and break right after the first
child that is not nullable. -/
def seqCalls : List GN → List Bool → List Nat
  | [], _ => []
  | c :: cs, ns => getCalls c ns ++ (if isNullableN c ns then seqCalls cs ns else [])
end

/-- One indexed step of the nullability pass: rules already flagged are
skipped, otherwise the flag is recomputed from the body under the current
(partially updated) vector, exactly as the in-place Rust loop does. -/
def nullPassFrom : Nat → List GN → List Bool → List Bool
  | _, [], ns => ns
  | i, r :: rs, ns =>
    nullPassFrom (i + 1) rs
      (if ns.getD i false then ns else if isNullableN r ns then ns.set i true else ns)

/-- One full pass of the nullability fixpoint loop of
Grammar::undecidable_rule. -/
def nullPass (rules : List GN) (ns : List Bool) : List Bool :=
  nullPassFrom 0 rules ns

/-- The while-changed loop: repeat passes until one changes nothing.  The
fuel bounds the number of changing passes; rules.length + 1 always
suffices. -/
def nullFixAux (rules : List GN) : Nat → List Bool → List Bool
  | 0, ns => ns
  | fuel + 1, ns =>
    let ns1 := nullPass rules ns
    if ns1 = ns then ns else nullFixAux rules fuel ns1

/-- The per-rule nullability flags computed by Grammar::undecidable_rule:
all false initially, then passes to the fixpoint. -/
def nullableVec (rules : List GN) : List Bool :=
  nullFixAux rules (rules.length + 1) (List.replicate rules.length false)

/-- The for-loop over a rule's non-consuming calls inside
Grammar::find_cycle, abstracted over the recursive call fc. -/
def goCalls (fc : Nat → List Bool → List Bool → Option (Bool × List Bool × List Bool)) :
    List Nat → List Bool → List Bool → Option (Bool × List Bool × List Bool)
  | [], v, s => some (false, v, s)
  | t :: ts, v, s =>
    match fc t v s with
    | none => none
    | some (true, v1, s1) => some (true, v1, s1)
    | some (false, v1, s1) => goCalls fc ts v1 s1

/-- Grammar::find_cycle from src/grammar.rs: depth-first search with a
visited set and an active stack; a revisit of a node still on the stack is a
non-consumption cycle.  The fuel only bounds the recursion depth; one more
than the rule count always suffices. -/
def findCycle (rules : List GN) (ns : List Bool) :
    Nat → Nat → List Bool → List Bool → Option (Bool × List Bool × List Bool)
  | 0, _, _, _ => none
  | fuel + 1, idx, v, s =>
    if s.getD idx false then some (true, v, s)
    else if v.getD idx false then some (false, v, s)
    else
      match goCalls (findCycle rules ns fuel) (getCalls (rules.getD idx dfltGN) ns)
          (v.set idx true) (s.set idx true) with
      | none => none
      | some (true, v1, s1) => some (true, v1, s1)
      | some (false, v1, s1) => some (false, v1, s1.set idx false)

/-- The for-loop of Grammar::undecidable_rule over all rule indices, sharing
the visited vector between the top-level searches. -/
def cycleScan (rules : List GN) (ns : List Bool) (fuel : Nat) :
    Nat → Nat → List Bool → List Bool → Option (Option Nat)
  | 0, _, _, _ => some none
  | k + 1, i, v, s =>
    match findCycle rules ns fuel i v s with
    | none => none
    | some (true, _, _) => some (some i)
    | some (false, v1, s1) => cycleScan rules ns fuel k (i + 1) v1 s1

/-- Grammar::undecidable_rule from src/grammar.rs: compute the nullability
fixpoint, then scan every rule for a non-consumption cycle.  The outer
Option is fuel exhaustion, the inner the Rust Option<usize>. -/
def undecidableRuleF (rules : List GN) : Option (Option Nat) :=
  cycleScan rules (nullableVec rules) (rules.length + 1) rules.length 0
    (List.replicate rules.length false) (List.replicate rules.length false)

/-- State threaded by Grammar::normalize: the rule table, the tag table,
the handle-to-index map and the set of handles being expanded. -/
structure NState where
  rules : List GN
  tags : List String
  ruleMap : List (Nat × Nat)
  stack : List Nat

/-- HashMap::get on the handle-to-index map. -/
def mapLookup (r : Nat) : List (Nat × Nat) → Option Nat
  | [] => none
  | (p, i) :: m => if r = p then some i else mapLookup r m

/-- Type of the handler invoked for a reference whose handle has no table
slot yet (the rule-expansion part of the normalizer). -/
abbrev RefHandler := Nat → String → Option String → NState → Option (GN × NState)

mutual
/-- The recursive helper of Grammar::normalize from src/grammar.rs,
abstracted over the new-rule handler.  Terminal passes through; Choice and
Sequence recurse; a Reference whose handle is on the stack or already mapped
becomes a Mu back-reference; Optional desugars to a choice with an
empty-string terminal; Many and Some synthesize fresh rules exactly as the
Rust code does, placeholder first, body patched in afterwards. -/
def normGo (rh : RefHandler) : GrammarNode → Option String → NState → Option (GN × NState)
  | .Terminal m, _, st => some (.Terminal m, st)
  | .Choice cs, pn, st =>
    match normList rh cs pn st with
    | none => none
    | some (gs, st1) => some (.Choice gs, st1)
  | .Sequence cs, pn, st =>
    match normList rh cs pn st with
    | none => none
    | some (gs, st1) => some (.Sequence gs, st1)
  | .Reference r name, pn, st =>
    if st.stack.contains r then
      match mapLookup r st.ruleMap with
      | some i => some (.Mu i, st)
      | none => none
    else
      match mapLookup r st.ruleMap with
      | some i => some (.Mu i, st)
      | none => rh r name pn st
  | .Optional inner, pn, st =>
    match normGo rh inner pn st with
    | none => none
    | some (g, st1) => some (.Choice [g, .Terminal (.str [])], st1)
  | .Many inner, pn, st =>
    let idx := st.rules.length
    let newTag := "_" ++ pn.getD "anonymous"
    match normGo rh inner (some newTag)
        { st with tags := st.tags ++ [newTag], rules := st.rules ++ [GN.Terminal .EndOfInput] } with
    | none => none
    | some (g, st2) =>
      let body : GN := .Tagged idx (.Choice [.Sequence [g, .Mu idx], .Terminal (.str [])])
      some (.Mu idx, { st2 with rules := st2.rules.set idx body })
  | .Some inner, pn, st =>
    let innerIdx := st.rules.length
    let name := pn.getD "anonymous"
    match normGo rh inner (some (name ++ "_some_elem"))
        { st with tags := st.tags ++ [name ++ "_some_elem"],
                  rules := st.rules ++ [GN.Terminal .EndOfInput] } with
    | none => none
    | some (g, st2) =>
      let st3 : NState := { st2 with rules := st2.rules.set innerIdx (.Tagged innerIdx g) }
      let manyIdx := st3.rules.length
      let body : GN :=
        .Tagged manyIdx (.Choice [.Sequence [.Mu innerIdx, .Mu manyIdx], .Terminal (.str [])])
      some (.Sequence [.Mu innerIdx, .Mu manyIdx],
        { st3 with
          tags := st3.tags ++ ["_" ++ name],
          rules := (st3.rules ++ [GN.Terminal .EndOfInput]).set manyIdx body })

/-- Normalization of a list of children, threading the state left to
right. -/
def normList (rh : RefHandler) : List GrammarNode → Option String → NState → Option (List GN × NState)
  | [], _, st => some ([], st)
  | c :: cs, pn, st =>
    match normGo rh c pn st with
    | none => none
    | some (g, st1) =>
      match normList rh cs pn st1 with
      | none => none
      | some (gs, st2) => some (g :: gs, st2)
end

/-- The new-handle arm of the Reference case of Grammar::normalize: reserve a
slot with a placeholder, record handle to index, push the handle on the
stack, expand the rule body, pop, and patch the slot with the tagged body.
The fuel bounds how many nested fresh handles can be opened. -/
def refExpand (env : Nat → GrammarNode) : Nat → RefHandler
  | 0, _, _, _, _ => none
  | fuel + 1, r, name, _pn, st =>
    let idx := st.rules.length
    match normGo (refExpand env fuel) (env r) (some name)
        { st with
          ruleMap := (r, idx) :: st.ruleMap,
          tags := st.tags ++ [name],
          rules := st.rules ++ [GN.Terminal .EndOfInput],
          stack := r :: st.stack } with
    | none => none
    | some (g, st2) =>
      some (.Mu idx,
        { st2 with stack := st2.stack.erase r, rules := st2.rules.set idx (.Tagged idx g) })

/-- The full normalize helper of src/grammar.rs at a given fuel. -/
def helper (env : Nat → GrammarNode) (fuel : Nat) (g : GrammarNode) (pn : Option String)
    (st : NState) : Option (GN × NState) :=
  normGo (refExpand env fuel) g pn st

/-- The EvaluationError taxonomy of src/grammar.rs. -/
inductive EvaluationError where
  | UndecidableRule (name : String)
  | AlwaysFails
deriving DecidableEq

/-- A compiled grammar: root expression, rule table and tag table. -/
structure Grammar where
  nodes : GN
  rules : List GN
  tags : List String

/-- Grammar::new from src/grammar.rs: normalize, then reject the grammar if
the cycle scan reports an undecidable rule, naming it by its tag. -/
def grammarNew (env : Nat → GrammarNode) (fuel : Nat) (g : GrammarNode) :
    Option (Except EvaluationError Grammar) :=
  match helper env fuel g none ⟨[], [], [], []⟩ with
  | none => none
  | some (node, st) =>
    match undecidableRuleF st.rules with
    | none => none
    | some (some idx) => some (.error (.UndecidableRule (st.tags.getD idx "")))
    | some none => some (.ok ⟨node, st.rules, st.tags⟩)

/-- Pointwise inclusion of boolean vectors read through getD (the visited
and stack sets of the DFS). -/
def bsub (v v' : List Bool) : Prop :=
  ∀ j, v.getD j false = true → v'.getD j false = true

/-- The non-consuming call graph of a rule table under a nullability
vector: an edge from rule u to every index in u's non-consuming calls. -/
def edgeR (rules : List GN) (ns : List Bool) (u v : Nat) : Prop :=
  v ∈ getCalls (rules.getD u dfltGN) ns

/-- A rule from which some non-consumption cycle is reachable. -/
def reachesCycleR (rules : List GN) (ns : List Bool) (u : Nat) : Prop :=
  ∃ w, Relation.ReflTransGen (edgeR rules ns) u w ∧ Relation.TransGen (edgeR rules ns) w w

/-- The call graph only targets real rules. -/
def closedGraph (rules : List GN) (ns : List Bool) : Prop :=
  ∀ u t, u < rules.length → edgeR rules ns u t → t < rules.length

/-- Finished (visited, off-stack) node of the DFS. -/
def blackR (v s : List Bool) (u : Nat) : Prop :=
  v.getD u false = true ∧ s.getD u false = false

/-- The DFS invariant: the stack is visited, finished nodes only step to
finished nodes, and no finished node lies on a cycle. -/
def dfsInv (rules : List GN) (ns : List Bool) (v s : List Bool) : Prop :=
  (∀ u, s.getD u false = true → v.getD u false = true) ∧
  (∀ u t, blackR v s u → edgeR rules ns u t → blackR v s t) ∧
  (∀ u, blackR v s u → ¬ Relation.TransGen (edgeR rules ns) u u)

/-- Map extension: every handle-to-index binding of the first map is a
binding of the second. -/
def mapExt (m1 m2 : List (Nat × Nat)) : Prop :=
  ∀ p i, mapLookup p m1 = some i → mapLookup p m2 = some i

/-- Normalizer state invariant: every mapped index points into the rule
table, and no two handles share a slot. -/
def InvN (st : NState) : Prop :=
  (∀ p i, mapLookup p st.ruleMap = some i → i < st.rules.length) ∧
  (∀ p q i, mapLookup p st.ruleMap = some i → mapLookup q st.ruleMap = some i → p = q)

/-- Contract of a new-rule handler used while proving normalizer
invariants: on success from a state not yet binding the handle, the map is
extended, the rule table only grows, the invariant is preserved, and the
result is a back-reference bound to the handle in the final map. -/
def RHOk (rh : RefHandler) : Prop :=
  ∀ r name pn st g st', rh r name pn st = some (g, st') →
    mapLookup r st.ruleMap = none →
    mapExt st.ruleMap st'.ruleMap ∧ st.rules.length ≤ st'.rules.length ∧
      (InvN st → InvN st') ∧ (∃ i, g = .Mu i ∧ mapLookup r st'.ruleMap = some i)

/-- Rule environment of the running example A ::= A | "a". -/
def envA : Nat → GrammarNode := fun _ => .Choice [.Reference 0 "A", .Terminal (.str ['a'])]

/-- Rule table the normalizer produces for A ::= A | "a". -/
def rulesA : List GN := [.Tagged 0 (.Choice [.Mu 0, .Terminal (.str ['a'])])]

/-- Rule table synthesized for some(""): the element rule and the
right-recursive tail rule. -/
def rulesS : List GN :=
  [.Tagged 0 (.Terminal (.str [])),
   .Tagged 1 (.Choice [.Sequence [.Mu 0, .Mu 1], .Terminal (.str [])])]

/-- Trivial rule environment mapping every handle to an empty-string
terminal rule body. -/
def envT : Nat → GrammarNode := fun _ => .Terminal (.str [])

/-- Rule environment of the running example a ::= b, b ::= b (the
non-consuming cycle sits on rule b, not on the scanned entry rule a). -/
def envB : Nat → GrammarNode := fun _ => .Reference 1 "b"

/-- Rule table the normalizer produces for a ::= b, b ::= b. -/
def rulesB : List GN := [.Tagged 0 (.Mu 1), .Tagged 1 (.Mu 1)]

/-- Rule environment of the running example A ::= "a" A | "" (self-reference
only after consuming "a"). -/
def envC : Nat → GrammarNode := fun _ =>
  .Choice [.Sequence [.Terminal (.str ['a']), .Reference 0 "A"], .Terminal (.str [])]

/-- Concrete arena for the spec's red-overlay example: three leaves of
widths 3, 5 and 2 under a root of width 10 at identifier 3. -/
def exArena : List SpecGreenNode :=
  [⟨5, 3, []⟩, ⟨5, 5, []⟩, ⟨5, 2, []⟩, ⟨1, 10, [0, 1, 2]⟩]

/-- Rule table the normalizer produces for A ::= "a" A | "". -/
def rulesC : List GN :=
  [.Tagged 0 (.Choice [.Sequence [.Terminal (.str ['a']), .Mu 0], .Terminal (.str [])])]

/-- Shape of the basic invariants every findCycle call preserves. -/
def fcBasic (fc : Nat → List Bool → List Bool → Option (Bool × List Bool × List Bool)) : Prop :=
  ∀ t v s r v' s', fc t v s = some (r, v', s') →
    bsub v v' ∧ v'.length = v.length ∧ s'.length = s.length ∧ (r = false → s' = s)

/-- Soundness invariant of the nullability pass: every flag already set is
justified by the corresponding rule body under the current flags. -/
def soundFlags (rules : List GN) (ns : List Bool) : Prop :=
  ∀ k, ns.getD k false = true → isNullableN (rules.getD k dfltGN) ns = true

/-- Shape of the invariant-preservation property of a false findCycle
result. -/
def fcFalse (rules : List GN) (ns : List Bool) (n : Nat)
    (fc : Nat → List Bool → List Bool → Option (Bool × List Bool × List Bool)) : Prop :=
  ∀ idx v s v' s', idx < n → v.length = n → s.length = n →
    dfsInv rules ns v s → fc idx v s = some (false, v', s') →
    dfsInv rules ns v' s ∧ blackR v' s idx

/-- Shape of the fuel-adequacy property: with fuel above the number of
unvisited nodes the search cannot run out. -/
def fcAd (n fuel : Nat)
    (fc : Nat → List Bool → List Bool → Option (Bool × List Bool × List Bool)) : Prop :=
  ∀ idx v s, idx < n → v.length = n → s.length = n → v.count false < fuel →
    fc idx v s ≠ none

/-- Shape of the soundness property: a positive answer exhibits a reachable
cycle, provided every stacked node reaches the current one. -/
def fcSound (rules : List GN) (ns : List Bool) (n : Nat)
    (fc : Nat → List Bool → List Bool → Option (Bool × List Bool × List Bool)) : Prop :=
  ∀ idx v s v' s', idx < n → s.length = n → s.getD idx false = false →
    (∀ g, s.getD g false = true → Relation.ReflTransGen (edgeR rules ns) g idx) →
    fc idx v s = some (true, v', s') → reachesCycleR rules ns idx

theorem matchesM_mono (m : Matcher) (input : List Char) (pos : Nat) :
    pos ≤ (matchesM m input pos).2 := by
  induction m generalizing pos with
  | str s =>
    simp only [matchesM]
    split
    · omega
    · omega
  | chr c =>
    simp only [matchesM]
    cases h : input[pos]? with
    | none => simp
    | some nc =>
      simp only []
      split <;> omega
  | StartOfInput => simp [matchesM]
  | EndOfInput => simp [matchesM]
  | Alternative a b iha ihb =>
    simp only [matchesM]
    split
    · exact iha pos
    · exact ihb pos
  | Sequence a b iha ihb =>
    simp only [matchesM]
    split
    · exact le_trans (iha pos) (ihb _)
    · exact iha pos
  | Repeat m mn mx ihm =>
    simp only [matchesM]
    split
    · have : ∀ b p, p ≤ (repLoop (matchesM m input) b p).2 := by
        intro b
        induction b with
        | zero => intro p; simp [repLoop]
        | succ b ihb =>
          intro p
          simp only [repLoop]
          split
          · exact le_trans (ihm p) (ihb _)
          · exact ihm p
      exact this mx pos
    · omega

theorem repLoop_mono (mm : Nat → Bool × Nat) (hmm : ∀ p, p ≤ (mm p).2) (b pos : Nat) :
    pos ≤ (repLoop mm b pos).2 := by
  induction b generalizing pos with
  | zero => simp [repLoop]
  | succ b ihb =>
    simp only [repLoop]
    split
    · exact le_trans (hmm pos) (ihb _)
    · exact hmm pos

theorem matchesM_bound (m : Matcher) (input : List Char) (pos : Nat)
    (hpos : pos ≤ input.length) : (matchesM m input pos).2 ≤ input.length := by
  induction m generalizing pos with
  | str s =>
    simp only [matchesM]
    split
    · next h =>
      rw [Bool.and_eq_true] at h
      exact Nat.le_of_ble_eq_true (by simpa using h.1)
    · exact hpos
  | chr c =>
    simp only [matchesM]
    cases h : input[pos]? with
    | none => simpa using hpos
    | some nc =>
      have : pos < input.length := by
        by_contra hge
        rw [List.getElem?_eq_none (by omega)] at h
        exact Option.noConfusion h
      simp only []
      split <;> omega
  | StartOfInput => simpa [matchesM] using hpos
  | EndOfInput => simpa [matchesM] using hpos
  | Alternative a b iha ihb =>
    simp only [matchesM]
    split
    · exact iha pos hpos
    · exact ihb pos hpos
  | Sequence a b iha ihb =>
    simp only [matchesM]
    split
    · exact ihb _ (iha pos hpos)
    · exact iha pos hpos
  | Repeat m mn mx ihm =>
    simp only [matchesM]
    split
    · have : ∀ b p, p ≤ input.length → (repLoop (matchesM m input) b p).2 ≤ input.length := by
        intro b
        induction b with
        | zero => intro p hp; simpa [repLoop] using hp
        | succ b ihb =>
          intro p hp
          simp only [repLoop]
          split
          · exact ihb _ (ihm p hp)
          · exact ihm p hp
      exact this mx pos hpos
    · exact hpos

theorem repLoop_const (mm : Nat → Bool × Nat) (pos : Nat) (hmm : mm pos = (true, pos)) (b : Nat) :
    repLoop mm b pos = (b, pos) := by
  induction b with
  | zero => simp [repLoop]
  | succ b ihb => simp [repLoop, hmm, ihb]

theorem nullable_nil_succeeds (m : Matcher) (hwf : wfRanges m = true)
    (hn : m.isNullable = true) : matchesM m [] 0 = (true, 0) := by
  induction m with
  | str s =>
    have : s = [] := by
      simpa [Matcher.isNullable, List.length_eq_zero] using hn
    subst this
    simp [matchesM]
  | chr c => simp [Matcher.isNullable] at hn
  | StartOfInput => simp [matchesM]
  | EndOfInput => simp [matchesM]
  | Alternative a b iha ihb =>
    simp only [wfRanges, Bool.and_eq_true] at hwf
    simp only [Matcher.isNullable, Bool.or_eq_true] at hn
    simp only [matchesM]
    cases hr : (matchesM a [] 0).1 with
    | true =>
      have h2 : (matchesM a [] 0).2 = 0 := Nat.le_zero.mp (matchesM_bound a [] 0 (by simp))
      simp [hr, h2]
    | false =>
      cases hn with
      | inl hna =>
        rw [iha hwf.1 hna] at hr
        simp at hr
      | inr hnb => simp [hr, ihb hwf.2 hnb]
  | Sequence a b iha ihb =>
    simp only [wfRanges, Bool.and_eq_true] at hwf
    simp only [Matcher.isNullable, Bool.and_eq_true] at hn
    simp [matchesM, iha hwf.1 hn.1, ihb hwf.2 hn.2]
  | Repeat m mn mx ihm =>
    simp only [wfRanges, Bool.and_eq_true, decide_eq_true_eq] at hwf
    simp only [Matcher.isNullable, Bool.or_eq_true, beq_iff_eq] at hn
    simp only [matchesM]
    cases hr : (matchesM m [] 0).1 with
    | true =>
      have h2 : (matchesM m [] 0).2 = 0 := Nat.le_zero.mp (matchesM_bound m [] 0 (by simp))
      have hm0 : matchesM m [] 0 = (true, 0) := by
        rw [Prod.ext_iff]
        exact ⟨hr, h2⟩
      rw [repLoop_const (matchesM m []) 0 hm0 mx]
      simp
      omega
    | false =>
      have h2 : (matchesM m [] 0).2 = 0 := Nat.le_zero.mp (matchesM_bound m [] 0 (by simp))
      have hmn : mn = 0 := by
        cases hn with
        | inl h => exact h
        | inr h =>
          rw [ihm hwf.2 h] at hr
          simp at hr
      subst hmn
      cases mx with
      | zero => simp [repLoop]
      | succ b => simp [repLoop, hr, h2]

theorem repLoop_first (mm : Nat → Bool × Nat) (hmm : ∀ p, p ≤ (mm p).2) (b pos : Nat)
    (h : 1 ≤ (repLoop mm b pos).1) :
    (mm pos).1 = true ∧ (mm pos).2 ≤ (repLoop mm b pos).2 := by
  cases b with
  | zero => simp [repLoop] at h
  | succ b =>
    simp only [repLoop] at h ⊢
    cases hf : (mm pos).1 with
    | false => rw [hf] at h; simp at h
    | true =>
      simp only [hf, if_true]
      exact ⟨by simp, repLoop_mono mm hmm b (mm pos).2⟩

theorem zero_success_nullable (m : Matcher) (input : List Char) (pos : Nat)
    (h : matchesM m input pos = (true, pos)) : m.isNullable = true := by
  induction m generalizing pos with
  | str s =>
    simp only [matchesM] at h
    split at h
    · injection h with h1 h2
      simp only [Matcher.isNullable, beq_iff_eq]
      omega
    · simp at h
  | chr c =>
    simp only [matchesM] at h
    cases hx : input[pos]? with
    | none => rw [hx] at h; simp at h
    | some nc =>
      rw [hx] at h
      by_cases hc : nc = c
      · simp [hc] at h
      · simp [hc] at h
  | StartOfInput => simp [Matcher.isNullable]
  | EndOfInput => simp [Matcher.isNullable]
  | Alternative a b iha ihb =>
    simp only [matchesM] at h
    simp only [Matcher.isNullable, Bool.or_eq_true]
    split at h
    · next hr =>
      injection h with h1 h2
      left
      apply iha pos
      rw [Prod.ext_iff]
      exact ⟨hr, h2⟩
    · right
      exact ihb pos h
  | Sequence a b iha ihb =>
    simp only [matchesM] at h
    simp only [Matcher.isNullable, Bool.and_eq_true]
    split at h
    · next hr =>
      have hmid := matchesM_mono a input pos
      have hend := matchesM_mono b input (matchesM a input pos).2
      have h2 : (matchesM b input (matchesM a input pos).2).2 = pos := by
        rw [h]
      have hmid0 : (matchesM a input pos).2 = pos := by omega
      constructor
      · exact iha pos (by rw [Prod.ext_iff]; exact ⟨hr, hmid0⟩)
      · apply ihb pos
        rw [hmid0] at h
        exact h
    · simp at h
  | Repeat m mn mx ihm =>
    simp only [matchesM] at h
    simp only [Matcher.isNullable, Bool.or_eq_true, beq_iff_eq]
    split at h
    · next hcnt =>
      injection h with h1 h2
      rcases Nat.eq_zero_or_pos mn with hmn | hmn
      · left; exact hmn
      · right
        have h1le : 1 ≤ (repLoop (matchesM m input) mx pos).1 := by omega
        obtain ⟨hfirst, hge⟩ := repLoop_first (matchesM m input) (matchesM_mono m input) mx pos h1le
        have hmono := matchesM_mono m input pos
        have hz : (matchesM m input pos).2 = pos := by omega
        exact ihm pos (by rw [Prod.ext_iff]; exact ⟨hfirst, hz⟩)
    · simp at h

/-- C7, counterexample: as stated the claim requires a nullable matcher to be
able to succeed consuming nothing from every valid start state; EndOfInput is
nullable yet fails at position 0 of the one-character input "a". -/
theorem c7_counterexample :
    Matcher.isNullable .EndOfInput = true ∧
      matchesM .EndOfInput ['a'] 0 = (false, 0) := by
  constructor
  · rfl
  · decide

/-- C7, amended: for matchers whose repeat bounds are non-degenerate
(mn ≤ mx), is_nullable is true exactly when matches can succeed while
consuming zero characters from some valid start state. -/
theorem c7_nullable_iff_zero_success (m : Matcher) (hwf : wfRanges m = true) :
    m.isNullable = true ↔
      ∃ input pos, pos ≤ input.length ∧ matchesM m input pos = (true, pos) := by
  constructor
  · intro hn
    exact ⟨[], 0, by simp, nullable_nil_succeeds m hwf hn⟩
  · rintro ⟨input, pos, -, h⟩
    exact zero_success_nullable m input pos h

/-- C7, witness: the amended equivalence instantiated at EndOfInput. -/
theorem c7_witness :
    Matcher.isNullable .EndOfInput = true ↔
      ∃ input pos, pos ≤ input.length ∧ matchesM .EndOfInput input pos = (true, pos) :=
  c7_nullable_iff_zero_success .EndOfInput (by decide)

/-- C10, counterexample: Alternative does not restore the entry position on
failure; with first branch 'x' and second branch "a" then "b" on input "ac",
the whole matcher fails but leaves the position at 1, not 0. -/
theorem c10_counterexample :
    matchesM (.Alternative (.chr 'x') (.Sequence (.str ['a']) (.str ['b']))) ['a', 'c'] 0 =
        (false, 1) ∧ (1 : Nat) ≠ 0 := by
  constructor
  · decide
  · decide

/-- C10, amended: Repeat fully restores the entry position whenever it fails,
and Alternative restores the entry position before attempting its second
branch (so its failure result is exactly the second branch's result from the
entry position, whose final position need not be the entry position). -/
theorem c10_backtracking (input : List Char) (pos : Nat) (m : Matcher) (mn mx : Nat)
    (a b : Matcher) :
    ((matchesM (.Repeat m mn mx) input pos).1 = false →
      (matchesM (.Repeat m mn mx) input pos).2 = pos) ∧
    ((matchesM a input pos).1 = false →
      matchesM (.Alternative a b) input pos = matchesM b input pos) := by
  constructor
  · simp only [matchesM]
    split
    · intro hf
      simp at hf
    · intro _
      rfl
  · intro hf
    simp only [matchesM, hf]
    simp

/-- C10, witness: the amended statement applied at a concrete failing Repeat
and a concrete Alternative whose first branch fails. -/
theorem c10_witness :
    (matchesM (.Repeat (.chr 'a') 2 3) [] 0).2 = 0 ∧
      matchesM (.Alternative (.chr 'x') (.str ['a'])) ['a'] 0 =
        matchesM (.str ['a']) ['a'] 0 :=
  ⟨(c10_backtracking [] 0 (.chr 'a') 2 3 (.chr 'x') (.str ['a'])).1 (by decide),
   (c10_backtracking ['a'] 0 (.chr 'a') 2 3 (.chr 'x') (.str ['a'])).2 (by decide)⟩

theorem bucketGet_mem (d : List (Nat × List Nat)) (h j : Nat) (hj : j ∈ bucketGet d h) :
    ∃ b, (h, b) ∈ d ∧ j ∈ b := by
  induction d with
  | nil => simp [bucketGet] at hj
  | cons kb rest ih =>
    obtain ⟨k, b⟩ := kb
    simp only [bucketGet] at hj
    split at hj
    · next hk => exact ⟨b, by simp [hk], hj⟩
    · obtain ⟨b1, hb1, hjb⟩ := ih hj
      exact ⟨b1, by simp [hb1], hjb⟩

theorem bucketGet_push_self (d : List (Nat × List Nat)) (h idx : Nat) :
    bucketGet (bucketPush d h idx) h = bucketGet d h ++ [idx] := by
  induction d with
  | nil => simp [bucketGet, bucketPush]
  | cons kb rest ih =>
    obtain ⟨k, b⟩ := kb
    by_cases hk : k = h
    · simp [bucketGet, bucketPush, hk]
    · simp [bucketGet, bucketPush, hk, ih]

theorem bucketPush_mem (d : List (Nat × List Nat)) (h idx : Nat) (k : Nat) (b : List Nat)
    (hmem : (k, b) ∈ bucketPush d h idx) :
    ∀ j ∈ b, (∃ b0, (k, b0) ∈ d ∧ j ∈ b0) ∨ j = idx := by
  induction d with
  | nil =>
    simp only [bucketPush, List.mem_singleton] at hmem
    intro j hj
    right
    obtain ⟨-, hb⟩ := Prod.mk.injEq .. ▸ hmem
    rw [hb] at hj
    simpa using hj
  | cons kb rest ih =>
    obtain ⟨k1, b1⟩ := kb
    simp only [bucketPush] at hmem
    split at hmem
    · next hk1 =>
      rcases List.mem_cons.mp hmem with heq | htail
      · intro j hj
        obtain ⟨hkk, hbb⟩ := Prod.mk.injEq .. ▸ heq.symm
        rw [← hbb] at hj
        rcases List.mem_append.mp hj with hin | hone
        · exact Or.inl ⟨b1, by simp [← hkk, hk1], hin⟩
        · exact Or.inr (by simpa using hone)
      · intro j hj
        exact Or.inl ⟨b, List.mem_cons_of_mem _ htail, hj⟩
    · next hk1 =>
      rcases List.mem_cons.mp hmem with heq | htail
      · intro j hj
        exact Or.inl ⟨b, by rw [show ((k : Nat), b) = (k1, b1) from heq]; exact List.mem_cons_self _ _, hj⟩
      · intro j hj
        rcases ih htail j hj with ⟨b0, hb0, hjb0⟩ | hidx
        · exact Or.inl ⟨b0, by simp [hb0], hjb0⟩
        · exact Or.inr hidx

theorem alloc_wf (hashF : GreenNode → Nat) (a : TreeAlloc) (hwf : wfArena a)
    (rule_id : Nat) (children : List Nat) :
    wfArena (alloc hashF a rule_id children).2 := by
  simp only [alloc]
  split
  · exact hwf
  · intro k b hmem j hj
    simp only [List.length_append, List.length_singleton]
    rcases bucketPush_mem a.dedup (hashF ⟨rule_id, children⟩) a.nodes.length k b hmem j hj with
      ⟨b0, hb0, hjb0⟩ | hidx
    · have := hwf k b0 hb0 j hjb0
      omega
    · omega

theorem alloc_node_at (hashF : GreenNode → Nat) (a : TreeAlloc) (hwf : wfArena a)
    (rule_id : Nat) (children : List Nat) :
    (alloc hashF a rule_id children).1 < (alloc hashF a rule_id children).2.nodes.length ∧
    (alloc hashF a rule_id children).2.nodes.getD (alloc hashF a rule_id children).1 ⟨0, []⟩ =
      ⟨rule_id, children⟩ := by
  simp only [alloc]
  split
  · next idx hfind =>
    have hpred := List.find?_some hfind
    have hmem := List.mem_of_find?_eq_some hfind
    obtain ⟨b0, hb0, hjb0⟩ := bucketGet_mem a.dedup (hashF ⟨rule_id, children⟩) idx hmem
    have hlt := hwf _ b0 hb0 idx hjb0
    exact ⟨hlt, by simpa using hpred⟩
  · constructor
    · simp
    · rw [List.getD_append_right _ _ _ _ (le_refl _)]
      simp

theorem alloc_preserves_nodes (hashF : GreenNode → Nat) (a : TreeAlloc)
    (rule_id : Nat) (children : List Nat) (j : Nat) (hj : j < a.nodes.length) :
    (alloc hashF a rule_id children).2.nodes.getD j ⟨0, []⟩ = a.nodes.getD j ⟨0, []⟩ ∧
      a.nodes.length ≤ (alloc hashF a rule_id children).2.nodes.length := by
  simp only [alloc]
  split
  · exact ⟨rfl, le_refl _⟩
  · exact ⟨List.getD_append _ _ _ _ hj, by simp⟩

/-- C2: the arena is a hash-consing store.  First, a second allocation with
identical content returns the identical GreenId and leaves the arena
untouched (no second node is stored).  Second, two allocations of different
contents return distinct ids even when the hash function sends both contents
to the same hash: the bucket scan falls back to full structural equality and
never unifies on the hash alone. -/
theorem c2_alloc_hash_consing (hashF : GreenNode → Nat) (a : TreeAlloc) (hwf : wfArena a)
    (r1 : Nat) (cs1 : List Nat) (r2 : Nat) (cs2 : List Nat) :
    alloc hashF (alloc hashF a r1 cs1).2 r1 cs1 = alloc hashF a r1 cs1 ∧
      (hashF ⟨r1, cs1⟩ = hashF ⟨r2, cs2⟩ → GreenNode.mk r1 cs1 ≠ GreenNode.mk r2 cs2 →
        (alloc hashF (alloc hashF a r1 cs1).2 r2 cs2).1 ≠ (alloc hashF a r1 cs1).1) := by
  constructor
  · rcases hsplit : (bucketGet a.dedup (hashF ⟨r1, cs1⟩)).find?
        (fun idx => a.nodes.getD idx ⟨0, []⟩ == (⟨r1, cs1⟩ : GreenNode)) with _ | idx
    · -- first call appended a fresh node; the second call finds it
      have h1 : alloc hashF a r1 cs1 =
          (a.nodes.length, (⟨a.nodes ++ [(⟨r1, cs1⟩ : GreenNode)],
            bucketPush a.dedup (hashF ⟨r1, cs1⟩) a.nodes.length⟩ : TreeAlloc)) := by
        simp only [alloc]
        rw [hsplit]
      rw [h1]
      simp only [alloc]
      rw [bucketGet_push_self]
      rw [List.find?_append]
      have hold : (bucketGet a.dedup (hashF ⟨r1, cs1⟩)).find?
          (fun idx => (a.nodes ++ [(⟨r1, cs1⟩ : GreenNode)]).getD idx ⟨0, []⟩ ==
            (⟨r1, cs1⟩ : GreenNode)) = none := by
        rw [List.find?_eq_none]
        intro x hx
        obtain ⟨b0, hb0, hxb⟩ := bucketGet_mem a.dedup (hashF ⟨r1, cs1⟩) x hx
        have hlt := hwf _ b0 hb0 x hxb
        rw [List.getD_append _ _ _ _ hlt]
        have := List.find?_eq_none.mp hsplit x hx
        simpa using this
      rw [hold]
      simp only [Option.none_or]
      rw [List.find?_singleton]
      rw [List.getD_append_right _ _ _ _ (le_refl _)]
      simp
    · -- first call found an existing node; the second call is identical
      have h1 : alloc hashF a r1 cs1 = (idx, a) := by
        simp only [alloc]
        rw [hsplit]
      rw [h1]
      simp only [alloc]
      rw [hsplit]
  · intro _ hne
    have hwf1 := alloc_wf hashF a hwf r1 cs1
    obtain ⟨hlt1, hat1⟩ := alloc_node_at hashF a hwf r1 cs1
    obtain ⟨hlt2, hat2⟩ := alloc_node_at hashF (alloc hashF a r1 cs1).2 hwf1 r2 cs2
    obtain ⟨hpres, hlen⟩ := alloc_preserves_nodes hashF (alloc hashF a r1 cs1).2 r2 cs2
      (alloc hashF a r1 cs1).1 hlt1
    intro heq
    rw [heq, hpres, hat1] at hat2
    exact hne (hat2.symm ▸ rfl)

/-- C2, witness: with a constant hash function (every allocation collides),
re-allocating (1, [2]) returns the same id and arena, and allocating the
different content (3, [4]) returns a distinct id. -/
theorem c2_witness :
    alloc (fun _ => 0) (alloc (fun _ => 0) ⟨[], []⟩ 1 [2]).2 1 [2] =
        alloc (fun _ => 0) ⟨[], []⟩ 1 [2] ∧
      (alloc (fun _ => 0) (alloc (fun _ => 0) ⟨[], []⟩ 1 [2]).2 3 [4]).1 ≠
        (alloc (fun _ => 0) ⟨[], []⟩ 1 [2]).1 := by
  have h := c2_alloc_hash_consing (fun _ => 0) ⟨[], []⟩
    (by intro k b hmem j hj; simp at hmem) 1 [2] 3 [4]
  exact ⟨h.1, h.2 rfl (by decide)⟩

theorem precWidth_eq_sum (arena : List SpecGreenNode) (cs : List Nat) (i : Nat) :
    precWidth arena cs i = ((cs.take i).map (widthOf arena)).sum := by
  induction cs generalizing i with
  | nil => cases i <;> simp [precWidth]
  | cons c cs ih =>
    cases i with
    | zero => simp [precWidth]
    | succ i => simp [precWidth, ih]

/-- C8: the red overlay places the root at offset 0 with no parent, and the
child at index i of a red node r carries offset = r's offset plus the sum of
the widths of the preceding sibling green nodes, green id = that child's id,
and parent = r; on the concrete sibling widths [3, 5, 2] the third child's
offset is root-offset + 3 + 5 = 8. -/
theorem c8_red_overlay (arena : List SpecGreenNode) (root : Nat) (r : RedNode) (i : Nat) :
    (redRoot root).offsetOf = 0 ∧ (redRoot root).parentOf = none ∧
      (redRoot root).greenOf = root ∧
      redChild arena r i =
        .mk (some r)
          (r.offsetOf +
            (((arena.getD r.greenOf ⟨0, 0, []⟩).children.take i).map (widthOf arena)).sum)
          ((arena.getD r.greenOf ⟨0, 0, []⟩).children.getD i 0) ∧
      (redChild exArena (redRoot 3) 2).offsetOf = 0 + (3 + 5) := by
  refine ⟨rfl, rfl, rfl, ?_, by decide⟩
  simp [redChild, precWidth_eq_sum]

/-- C9: the validation of Parser::receive_edits only checks span.end against
the buffer length, so the edit Delete{span: 5..2} on the three-character
buffer "abc" passes validation and String::replace_range panics instead of
returning SpanOutOfBounds. -/
theorem c9_out_of_bounds_panic :
    receiveEdits (.Delete ⟨5, 2⟩) ['a', 'b', 'c'] = .panic ∧
      receiveEdits (.Update ⟨1, 5⟩ ['x']) ['a', 'b', 'c'] =
        .err (.SpanOutOfBounds ⟨1, 5⟩ ⟨0, 3⟩) ['a', 'b', 'c'] := by
  constructor
  · decide
  · decide

theorem getD_set_bool (l : List Bool) (i j : Nat) (b : Bool) :
    (l.set i b).getD j false = if j = i ∧ i < l.length then b else l.getD j false := by
  induction l generalizing i j with
  | nil => simp
  | cons a l ih =>
    cases i with
    | zero =>
      cases j with
      | zero => simp
      | succ j => simp
    | succ i =>
      cases j with
      | zero => simp
      | succ j =>
        simp only [List.set_cons_succ, List.getD_cons_succ, List.length_cons]
        rw [ih i j]
        by_cases hj : j = i ∧ i < l.length
        · simp [hj, hj.1, hj.2, Nat.succ_lt_succ hj.2]
        · have h2 : ¬(j + 1 = i + 1 ∧ i + 1 < l.length + 1) := by omega
          simp [hj, h2]

theorem getD_replicate_false (n j : Nat) : (List.replicate n false).getD j false = false := by
  rcases Nat.lt_or_ge j n with h | h
  · rw [List.getD_eq_getElem _ _ (by simpa using h)]
    simp
  · exact List.getD_eq_default _ _ (by simpa using h)

theorem set_of_getD_false (l : List Bool) (i : Nat) (h : l.getD i false = false) :
    l.set i false = l := by
  induction l generalizing i with
  | nil => simp
  | cons a l ih =>
    cases i with
    | zero => simp at h; simp [h]
    | succ i =>
      simp only [List.getD_cons_succ] at h
      simp only [List.set_cons_succ, List.cons.injEq]
      exact ⟨by simp, ih i h⟩

theorem set_true_restore (l : List Bool) (i : Nat) (h : l.getD i false = false) :
    (l.set i true).set i false = l := by
  rw [List.set_set]
  exact set_of_getD_false l i h

theorem bsub_refl (l : List Bool) : bsub l l := fun _ h => h

theorem bsub_trans {a b c : List Bool} (h1 : bsub a b) (h2 : bsub b c) : bsub a c :=
  fun j h => h2 j (h1 j h)

theorem bsub_set_true (l : List Bool) (i : Nat) : bsub l (l.set i true) := by
  intro j h
  rw [getD_set_bool]
  split
  · rfl
  · exact h

theorem count_false_set_true (l : List Bool) (i : Nat) (hi : i < l.length)
    (h : l.getD i false = false) : (l.set i true).count false + 1 = l.count false := by
  induction l generalizing i with
  | nil => simp at hi
  | cons a l ih =>
    cases i with
    | zero =>
      simp only [List.getD_cons_zero] at h
      subst h
      simp [List.count_cons]
    | succ i =>
      simp only [List.getD_cons_succ] at h
      simp only [List.set_cons_succ, List.count_cons]
      have := ih i (by simpa using hi) h
      omega

theorem count_false_le_of_bsub (l l' : List Bool) (hlen : l.length = l'.length)
    (hsub : bsub l l') : l'.count false ≤ l.count false := by
  induction l generalizing l' with
  | nil =>
    cases l' with
    | nil => simp
    | cons a l' => simp at hlen
  | cons a l ih =>
    cases l' with
    | nil => simp at hlen
    | cons a' l' =>
      have h0 := hsub 0
      simp only [List.getD_cons_zero] at h0
      have htail : bsub l l' := by
        intro j hj
        have := hsub (j + 1)
        simpa using this hj
      have := ih l' (by simpa using hlen) htail
      simp only [List.count_cons]
      cases a with
      | true => simp [h0 rfl]; omega
      | false => cases a' <;> simp <;> omega

theorem exists_flip_of_ne (l l' : List Bool) (hlen : l.length = l'.length)
    (hsub : bsub l l') (hne : l ≠ l') :
    ∃ j, j < l.length ∧ l.getD j false = false ∧ l'.getD j false = true := by
  induction l generalizing l' with
  | nil =>
    cases l' with
    | nil => exact absurd rfl hne
    | cons a l' => simp at hlen
  | cons a l ih =>
    cases l' with
    | nil => simp at hlen
    | cons a' l' =>
      have h0 := hsub 0
      simp only [List.getD_cons_zero] at h0
      by_cases hhead : a = a'
      · subst hhead
        have hne' : l ≠ l' := by
          intro h
          exact hne (by rw [h])
        have htail : bsub l l' := by
          intro j hj
          have := hsub (j + 1)
          simpa using this hj
        obtain ⟨j, hj, hf, ht⟩ := ih l' (by simpa using hlen) htail hne'
        exact ⟨j + 1, by simpa using hj, by simpa using hf, by simpa using ht⟩
      · cases a with
        | true => exact absurd (h0 rfl).symm hhead
        | false =>
          cases a' with
          | false => exact absurd rfl hhead
          | true => exact ⟨0, by simp, by simp, by simp⟩

theorem count_false_lt_of_flip (l l' : List Bool) (hlen : l.length = l'.length)
    (hsub : bsub l l') (j : Nat) (hj : j < l.length) (hf : l.getD j false = false)
    (ht : l'.getD j false = true) : l'.count false < l.count false := by
  induction l generalizing l' j with
  | nil => simp at hj
  | cons a l ih =>
    cases l' with
    | nil => simp at hlen
    | cons a' l' =>
      have h0 := hsub 0
      simp only [List.getD_cons_zero] at h0
      have htail : bsub l l' := by
        intro i hi
        have := hsub (i + 1)
        simpa using this hi
      have htaille := count_false_le_of_bsub l l' (by simpa using hlen) htail
      cases j with
      | zero =>
        simp only [List.getD_cons_zero] at hf ht
        subst hf
        subst ht
        simp [List.count_cons]
        omega
      | succ j =>
        simp only [List.getD_cons_succ] at hf ht
        have := ih l' (by simpa using hlen) htail j (by simpa using hj) hf ht
        simp only [List.count_cons]
        cases a with
        | true => simp [h0 rfl]; omega
        | false => cases a' <;> simp <;> omega

mutual
theorem isNullableN_mono : ∀ (g : GN) (ns ns' : List Bool), bsub ns ns' →
    isNullableN g ns = true → isNullableN g ns' = true
  | .Terminal m, _, _, _, h => h
  | .Choice cs, ns, ns', hsub, h => anyNullable_mono cs ns ns' hsub h
  | .Sequence cs, ns, ns', hsub, h => allNullable_mono cs ns ns' hsub h
  | .Tagged _ inner, ns, ns', hsub, h => isNullableN_mono inner ns ns' hsub h
  | .Mu idx, ns, ns', hsub, h => hsub idx h

theorem anyNullable_mono : ∀ (cs : List GN) (ns ns' : List Bool), bsub ns ns' →
    anyNullable cs ns = true → anyNullable cs ns' = true
  | [], _, _, _, h => h
  | c :: cs, ns, ns', hsub, h => by
    simp only [anyNullable, Bool.or_eq_true] at h ⊢
    rcases h with h | h
    · exact Or.inl (isNullableN_mono c ns ns' hsub h)
    · exact Or.inr (anyNullable_mono cs ns ns' hsub h)

theorem allNullable_mono : ∀ (cs : List GN) (ns ns' : List Bool), bsub ns ns' →
    allNullable cs ns = true → allNullable cs ns' = true
  | [], _, _, _, h => h
  | c :: cs, ns, ns', hsub, h => by
    simp only [allNullable, Bool.and_eq_true] at h ⊢
    exact ⟨isNullableN_mono c ns ns' hsub h.1, allNullable_mono cs ns ns' hsub h.2⟩
end

theorem nullPassFrom_length (rs : List GN) (i : Nat) (ns : List Bool) :
    (nullPassFrom i rs ns).length = ns.length := by
  induction rs generalizing i ns with
  | nil => rfl
  | cons r rs ih =>
    simp only [nullPassFrom]
    rw [ih]
    split
    · rfl
    · split
      · simp
      · rfl

theorem nullPassFrom_mono (rs : List GN) (i : Nat) (ns : List Bool) :
    bsub ns (nullPassFrom i rs ns) := by
  induction rs generalizing i ns with
  | nil => exact bsub_refl ns
  | cons r rs ih =>
    simp only [nullPassFrom]
    apply bsub_trans _ (ih (i + 1) _)
    split
    · exact bsub_refl ns
    · split
      · exact bsub_set_true ns i
      · exact bsub_refl ns

theorem getD_of_drop (rules : List GN) (i : Nat) (r : GN) (rs : List GN)
    (h : rules.drop i = r :: rs) : rules.getD i dfltGN = r := by
  induction rules generalizing i with
  | nil => simp at h
  | cons a l ih =>
    cases i with
    | zero => simp at h; simp [h.1]
    | succ i =>
      simp only [List.drop_succ_cons] at h
      simpa using ih i h

theorem drop_succ_of_drop (rules : List GN) (i : Nat) (r : GN) (rs : List GN)
    (h : rules.drop i = r :: rs) : rules.drop (i + 1) = rs := by
  have : rules.drop (i + 1) = (rules.drop i).drop 1 := by
    rw [List.drop_drop]
  rw [this, h]
  rfl

theorem nullPassFrom_sound (rules : List GN) (rs : List GN) (i : Nat) (ns : List Bool)
    (hdrop : rules.drop i = rs) (hs : soundFlags rules ns) :
    soundFlags rules (nullPassFrom i rs ns) := by
  induction rs generalizing i ns with
  | nil => exact hs
  | cons r rs ih =>
    simp only [nullPassFrom]
    apply ih (i + 1) _ (drop_succ_of_drop rules i r rs hdrop)
    split
    · exact hs
    · split
      · next hnull =>
        intro k hk
        rw [getD_set_bool] at hk
        split at hk
        · next hcond =>
          rw [hcond.1, getD_of_drop rules i r rs hdrop]
          exact isNullableN_mono r ns _ (bsub_set_true ns i) hnull
        · exact isNullableN_mono _ ns _ (bsub_set_true ns i) (hs k hk)
      · exact hs

theorem nullPassFrom_complete (rules : List GN) (rs : List GN) (i : Nat) (ns : List Bool)
    (j : Nat) (hdrop : rules.drop i = rs) (hij : i ≤ j) (hjr : j - i < rs.length)
    (hjn : j < ns.length)
    (hnull : isNullableN (rules.getD j dfltGN) ns = true) :
    (nullPassFrom i rs ns).getD j false = true := by
  induction rs generalizing i ns with
  | nil => simp at hjr
  | cons r rs ih =>
    simp only [nullPassFrom]
    by_cases hji : j = i
    · subst hji
      have hbody : (if ns.getD j false then ns
          else if isNullableN r ns then ns.set j true else ns).getD j false = true := by
        split
        · next h => exact h
        · rw [getD_of_drop rules j r rs hdrop] at hnull
          rw [if_pos hnull, getD_set_bool]
          simp [hjn]
      exact nullPassFrom_mono rs (j + 1) _ j hbody
    · have hij1 : i + 1 ≤ j := by omega
      have hjr1 : j - (i + 1) < rs.length := by
        simp only [List.length_cons] at hjr
        omega
      apply ih (i + 1) _ (drop_succ_of_drop rules i r rs hdrop) hij1 hjr1
      · split
        · exact hjn
        · split
          · simpa using hjn
          · exact hjn
      · apply isNullableN_mono _ ns _ _ hnull
        split
        · exact bsub_refl ns
        · split
          · exact bsub_set_true ns i
          · exact bsub_refl ns

theorem nullFixAux_length (rules : List GN) (fuel : Nat) (ns : List Bool) :
    (nullFixAux rules fuel ns).length = ns.length := by
  induction fuel generalizing ns with
  | zero => rfl
  | succ fuel ih =>
    simp only [nullFixAux]
    split
    · rfl
    · rw [ih]
      exact nullPassFrom_length rules 0 ns

theorem nullFixAux_reaches_fix (rules : List GN) (fuel : Nat) (ns : List Bool)
    (hfuel : ns.count false < fuel) :
    nullPass rules (nullFixAux rules fuel ns) = nullFixAux rules fuel ns := by
  induction fuel generalizing ns with
  | zero => omega
  | succ fuel ih =>
    simp only [nullFixAux]
    split
    · next heq => exact heq
    · next hne =>
      apply ih
      have hlen : ns.length = (nullPass rules ns).length :=
        (nullPassFrom_length rules 0 ns).symm
      have hsub : bsub ns (nullPass rules ns) := nullPassFrom_mono rules 0 ns
      obtain ⟨j, hj, hf, ht⟩ := exists_flip_of_ne ns (nullPass rules ns) hlen hsub
        (fun h => hne h.symm)
      have := count_false_lt_of_flip ns (nullPass rules ns) hlen hsub j hj hf ht
      omega

theorem nullFixAux_sound (rules : List GN) (fuel : Nat) (ns : List Bool)
    (hs : soundFlags rules ns) : soundFlags rules (nullFixAux rules fuel ns) := by
  induction fuel generalizing ns with
  | zero => exact hs
  | succ fuel ih =>
    simp only [nullFixAux]
    split
    · exact hs
    · exact ih _ (nullPassFrom_sound rules rules 0 ns rfl hs)

theorem nullableVec_length (rules : List GN) : (nullableVec rules).length = rules.length := by
  rw [nullableVec, nullFixAux_length]
  exact List.length_replicate _ _

theorem nullPass_nullableVec (rules : List GN) :
    nullPass rules (nullableVec rules) = nullableVec rules := by
  apply nullFixAux_reaches_fix
  have : (List.replicate rules.length false).count false ≤ rules.length := by
    simpa using List.count_le_length _ _
  omega

theorem nullableVec_sound (rules : List GN) : soundFlags rules (nullableVec rules) := by
  apply nullFixAux_sound
  intro k hk
  rw [getD_replicate_false] at hk
  exact absurd hk (by simp)

theorem nullableVec_fix_eq (rules : List GN) (i : Nat) (hi : i < rules.length) :
    (nullableVec rules).getD i false = isNullableN (rules.getD i dfltGN) (nullableVec rules) := by
  cases hv : (nullableVec rules).getD i false with
  | true => exact (nullableVec_sound rules i hv).symm
  | false =>
    cases hn : isNullableN (rules.getD i dfltGN) (nullableVec rules) with
    | false => rfl
    | true =>
      exfalso
      have hcomp := nullPassFrom_complete rules rules 0 (nullableVec rules) i rfl
        (Nat.zero_le i) (by simpa using hi) (by rw [nullableVec_length]; exact hi) hn
      rw [show nullPassFrom 0 rules (nullableVec rules) = nullPass rules (nullableVec rules)
        from rfl, nullPass_nullableVec] at hcomp
      rw [hv] at hcomp
      exact Bool.noConfusion hcomp

/-- C4: the nullability analysis is a monotone fixpoint iteration: flags set
in the input of a pass stay set in its output (flags only flip false to
true); the iteration started from the all-false vector terminates in a
fixpoint (re-running a full pass on it changes nothing); and at that
fixpoint each rule's flag equals the recomputation from its body (Terminal
by the matcher's nullability, Choice by any, Sequence by all, Mu by the
referenced flag, which is how isNullableN is defined). -/
theorem c4_nullability_fixpoint (rules : List GN) :
    (∀ ns j, ns.getD j false = true → (nullPass rules ns).getD j false = true) ∧
      nullPass rules (nullableVec rules) = nullableVec rules ∧
      (∀ i, i < rules.length →
        (nullableVec rules).getD i false =
          isNullableN (rules.getD i dfltGN) (nullableVec rules)) :=
  ⟨fun ns j h => nullPassFrom_mono rules 0 ns j h,
   nullPass_nullableVec rules,
   fun i hi => nullableVec_fix_eq rules i hi⟩

/-- C4, witness: the fixpoint equations instantiated on the rule table of
A ::= "a" A | "", whose single rule is nullable. -/
theorem c4_witness :
    nullPass rulesC (nullableVec rulesC) = nullableVec rulesC ∧
      (nullableVec rulesC).getD 0 false =
        isNullableN (rulesC.getD 0 dfltGN) (nullableVec rulesC) :=
  ⟨(c4_nullability_fixpoint rulesC).2.1,
   (c4_nullability_fixpoint rulesC).2.2 0 (by decide)⟩

theorem choiceCalls_eq (cs : List GN) (ns : List Bool) :
    choiceCalls cs ns = (cs.map (fun c => getCalls c ns)).flatten := by
  induction cs with
  | nil => rfl
  | cons c cs ih => simp [choiceCalls, ih]

theorem seqCalls_eq (cs : List GN) (ns : List Bool) :
    seqCalls cs ns =
      ((cs.take (cs.findIdx (fun c => !isNullableN c ns) + 1)).map
        (fun c => getCalls c ns)).flatten := by
  induction cs with
  | nil => rfl
  | cons c cs ih =>
    simp only [seqCalls, List.findIdx_cons]
    cases hn : isNullableN c ns with
    | true =>
      simp only [hn, Bool.not_true, if_true, cond_false]
      simp [ih]
    | false =>
      simp only [hn, Bool.not_false, if_false, cond_true]
      simp

/-- C3: the non-consuming calls are computed as the claim states: a Terminal
contributes nothing, a Choice contributes the concatenation of every
branch's calls regardless of nullability, a Sequence contributes the calls
of its children up to and including the first non-nullable child, and a Mu
back-reference contributes its own index.  Consequently A ::= "a" A | ""
(whose self-reference sits behind the mandatory "a") compiles successfully
and its rule is nullable. -/
theorem c3_non_consuming_calls (ns : List Bool) (m : Matcher) (cs : List GN) (idx : Nat) :
    getCalls (.Terminal m) ns = [] ∧
      getCalls (.Choice cs) ns = (cs.map (fun c => getCalls c ns)).flatten ∧
      getCalls (.Sequence cs) ns =
        ((cs.take (cs.findIdx (fun c => !isNullableN c ns) + 1)).map
          (fun c => getCalls c ns)).flatten ∧
      getCalls (.Mu idx) ns = [idx] ∧
      grammarNew envC 5 (.Reference 0 "A") =
        some (.ok ⟨.Mu 0, rulesC, ["A"]⟩) ∧
      (nullableVec rulesC).getD 0 false = true := by
  refine ⟨rfl, choiceCalls_eq cs ns, seqCalls_eq cs ns, rfl, rfl, rfl⟩

theorem goCalls_basic (fc : Nat → List Bool → List Bool → Option (Bool × List Bool × List Bool))
    (hfc : fcBasic fc) (ts : List Nat) (v s : List Bool) (r : Bool) (v' s' : List Bool)
    (h : goCalls fc ts v s = some (r, v', s')) :
    bsub v v' ∧ v'.length = v.length ∧ s'.length = s.length ∧ (r = false → s' = s) := by
  induction ts generalizing v s with
  | nil =>
    simp only [goCalls] at h
    injection h with h
    injection h with h1 h2
    injection h2 with h2 h3
    subst h1; subst h2; subst h3
    exact ⟨bsub_refl v, rfl, rfl, fun _ => rfl⟩
  | cons t ts ih =>
    simp only [goCalls] at h
    cases hfc' : fc t v s with
    | none => rw [hfc'] at h; exact Option.noConfusion h
    | some res =>
      obtain ⟨r1, v1, s1⟩ := res
      rw [hfc'] at h
      obtain ⟨hsub1, hlv1, hls1, hs1⟩ := hfc t v s r1 v1 s1 hfc'
      cases r1 with
      | true =>
        simp only at h
        injection h with h
        injection h with h1 h2
        injection h2 with h2 h3
        subst h1; subst h2; subst h3
        exact ⟨hsub1, hlv1, hls1, fun hf => Bool.noConfusion hf⟩
      | false =>
        simp only at h
        obtain ⟨hsub2, hlv2, hls2, hs2⟩ := ih v1 s1 h
        have hseq := hs1 rfl
        subst hseq
        exact ⟨bsub_trans hsub1 hsub2, by omega, by omega, hs2⟩

theorem findCycle_basic (rules : List GN) (ns : List Bool) (fuel : Nat) :
    fcBasic (findCycle rules ns fuel) := by
  induction fuel with
  | zero => intro t v s r v' s' h; exact Option.noConfusion h
  | succ fuel ih =>
    intro t v s r v' s' h
    simp only [findCycle] at h
    split at h
    · injection h with h
      injection h with h1 h2
      injection h2 with h2 h3
      subst h1; subst h2; subst h3
      exact ⟨bsub_refl v, rfl, rfl, fun hf => Bool.noConfusion hf⟩
    · split at h
      · injection h with h
        injection h with h1 h2
        injection h2 with h2 h3
        subst h1; subst h2; subst h3
        exact ⟨bsub_refl v, rfl, rfl, fun _ => rfl⟩
      · next hsidx hvidx =>
        cases hgc : goCalls (findCycle rules ns fuel) (getCalls (rules.getD t dfltGN) ns)
            (v.set t true) (s.set t true) with
        | none => rw [hgc] at h; exact Option.noConfusion h
        | some res =>
          obtain ⟨r1, v1, s1⟩ := res
          rw [hgc] at h
          obtain ⟨hsub1, hlv1, hls1, hs1⟩ := goCalls_basic _ ih _ _ _ _ _ _ hgc
          cases r1 with
          | true =>
            simp only at h
            injection h with h
            injection h with h1 h2
            injection h2 with h2 h3
            subst h1; subst h2; subst h3
            refine ⟨bsub_trans (bsub_set_true v t) hsub1, by simpa using hlv1,
              by simpa using hls1, fun hf => Bool.noConfusion hf⟩
          | false =>
            simp only at h
            injection h with h
            injection h with h1 h2
            injection h2 with h2 h3
            subst h1; subst h2; subst h3
            have hseq := hs1 rfl
            subst hseq
            refine ⟨bsub_trans (bsub_set_true v t) hsub1, by simpa using hlv1, ?_, fun _ => ?_⟩
            · simp [List.length_set]
            · rw [set_true_restore s t (by simpa using hsidx)]

theorem black_mono {v v' s : List Bool} {u : Nat} (h : blackR v s u) (hsub : bsub v v') :
    blackR v' s u :=
  ⟨hsub u h.1, h.2⟩

theorem black_of_superstack {v s s1 : List Bool} {u : Nat} (hss : bsub s s1)
    (h : blackR v s1 u) : blackR v s u := by
  refine ⟨h.1, ?_⟩
  cases hsu : s.getD u false with
  | false => rfl
  | true => exact absurd (hss u hsu) (by rw [h.2]; simp)

theorem reach_black_closure (rules : List GN) (ns : List Bool) (v s : List Bool)
    (hcl : ∀ u t, blackR v s u → edgeR rules ns u t → blackR v s t) {u w : Nat}
    (hb : blackR v s u) (hr : Relation.ReflTransGen (edgeR rules ns) u w) :
    blackR v s w := by
  induction hr with
  | refl => exact hb
  | tail _ hedge ih => exact hcl _ _ ih hedge

theorem goCalls_false (rules : List GN) (ns : List Bool) (n : Nat)
    (fc : Nat → List Bool → List Bool → Option (Bool × List Bool × List Bool))
    (hbasic : fcBasic fc) (hfc : fcFalse rules ns n fc) (ts : List Nat) (v s : List Bool)
    (v' s' : List Bool) (hts : ∀ t ∈ ts, t < n) (hlv : v.length = n) (hls : s.length = n)
    (hinv : dfsInv rules ns v s) (h : goCalls fc ts v s = some (false, v', s')) :
    dfsInv rules ns v' s ∧ ∀ t ∈ ts, blackR v' s t := by
  induction ts generalizing v with
  | nil =>
    simp only [goCalls] at h
    injection h with h
    injection h with h1 h2
    injection h2 with h2 h3
    subst h2
    exact ⟨hinv, by simp⟩
  | cons t ts ih =>
    simp only [goCalls] at h
    cases hfc' : fc t v s with
    | none => rw [hfc'] at h; exact Option.noConfusion h
    | some res =>
      obtain ⟨r1, v1, s1⟩ := res
      rw [hfc'] at h
      cases r1 with
      | true => simp only at h; injection h with h; injection h with h1 h2; exact Bool.noConfusion h1
      | false =>
        simp only at h
        obtain ⟨hsub1, hlv1, hls1, hseq⟩ := hbasic t v s false v1 s1 hfc'
        have hseq' := hseq rfl
        subst hseq'
        obtain ⟨hinv1, hblack1⟩ :=
          hfc t v s1 v1 s1 (hts t (by simp)) hlv hls hinv hfc'
        obtain ⟨hinv2, hblack2⟩ := ih v1 (fun t' ht' => hts t' (by simp [ht'])) (by omega) hinv1 h
        refine ⟨hinv2, ?_⟩
        intro t' ht'
        rcases List.mem_cons.mp ht' with rfl | htail
        · obtain ⟨hsub2, -, -, -⟩ := goCalls_basic fc hbasic ts v1 s1 false v' s' h
          exact black_mono hblack1 hsub2
        · exact hblack2 t' htail

theorem findCycle_false (rules : List GN) (ns : List Bool) (n : Nat) (hn : rules.length = n)
    (hclosed : closedGraph rules ns) (fuel : Nat) :
    fcFalse rules ns n (findCycle rules ns fuel) := by
  induction fuel with
  | zero => intro idx v s v' s' _ _ _ _ h; exact Option.noConfusion h
  | succ fuel ih =>
    intro idx v s v' s' hidx hlv hls hinv h
    simp only [findCycle] at h
    split at h
    · injection h with h; injection h with h1 h2; exact Bool.noConfusion h1
    · split at h
      · next hsidx hvidx =>
        injection h with h
        injection h with h1 h2
        injection h2 with h2 h3
        subst h2; subst h3
        exact ⟨hinv, hvidx, by simpa using hsidx⟩
      · next hsidx hvidx =>
        rw [Bool.not_eq_true] at hsidx hvidx
        cases hgc : goCalls (findCycle rules ns fuel) (getCalls (rules.getD idx dfltGN) ns)
            (v.set idx true) (s.set idx true) with
        | none => rw [hgc] at h; exact Option.noConfusion h
        | some res =>
          obtain ⟨r1, v1, s1⟩ := res
          rw [hgc] at h
          cases r1 with
          | true =>
            simp only at h; injection h with h; injection h with h1 h2
            exact Bool.noConfusion h1
          | false =>
            simp only at h
            injection h with h
            injection h with h1 h2
            injection h2 with h2 h3
            subst h2
            -- the inner run keeps the extended stack fixed
            obtain ⟨hsubg, hlvg, hlsg, hseqg⟩ :=
              goCalls_basic _ (findCycle_basic rules ns fuel) _ _ _ _ _ _ hgc
            have hseq1 := hseqg rfl
            subst hseq1
            -- the invariant holds for the extended stack
            have hinv1 : dfsInv rules ns (v.set idx true) (s.set idx true) := by
              obtain ⟨hc1, hc2, hc3⟩ := hinv
              refine ⟨?_, ?_, ?_⟩
              · intro u hu
                rw [getD_set_bool] at hu ⊢
                split
                · rfl
                · next hcond =>
                  rw [if_neg (by omega)] at hu
                  exact hc1 u hu
              · intro u t hb hedge
                have hune : u ≠ idx := by
                  intro hueq
                  subst hueq
                  have h9 : (s.set u true).getD u false = true := by
                    rw [getD_set_bool]
                    simp [show u < s.length by omega]
                  have h10 := hb.2
                  rw [h9] at h10
                  exact Bool.noConfusion h10
                have hbu : blackR v s u := by
                  refine ⟨?_, ?_⟩
                  · have := hb.1
                    rw [getD_set_bool, if_neg (by tauto)] at this
                    exact this
                  · have := hb.2
                    rw [getD_set_bool, if_neg (by tauto)] at this
                    exact this
                have hbt := hc2 u t hbu hedge
                have htne : t ≠ idx := by
                  intro hteq
                  subst hteq
                  rw [hbt.1] at hvidx
                  exact Bool.noConfusion hvidx
                refine ⟨?_, ?_⟩
                · rw [getD_set_bool, if_neg (by tauto)]
                  exact hbt.1
                · rw [getD_set_bool, if_neg (by tauto)]
                  exact hbt.2
              · intro u hb
                have hune : u ≠ idx := by
                  intro hueq
                  subst hueq
                  have h9 : (s.set u true).getD u false = true := by
                    rw [getD_set_bool]
                    simp [show u < s.length by omega]
                  have h10 := hb.2
                  rw [h9] at h10
                  exact Bool.noConfusion h10
                apply hc3 u
                refine ⟨?_, ?_⟩
                · have := hb.1
                  rw [getD_set_bool, if_neg (by tauto)] at this
                  exact this
                · have := hb.2
                  rw [getD_set_bool, if_neg (by tauto)] at this
                  exact this
            have hts : ∀ t ∈ getCalls (rules.getD idx dfltGN) ns, t < n := by
              intro t ht
              exact hn ▸ hclosed idx t (by omega) ht
            obtain ⟨hinv2, hblacks⟩ := goCalls_false rules ns n _ (findCycle_basic rules ns fuel)
              ih _ _ _ _ _ hts (by simpa using hlv) (by simpa using hls) hinv1 hgc
            -- pop idx from the stack
            have hrestore : (s.set idx true).set idx false = s := set_true_restore s idx hsidx
            rw [hrestore] at h3
            subst h3
            have hs1idx : (s.set idx true).getD idx false = true := by
              rw [getD_set_bool]
              simp [show idx < s.length by omega]
            have hvidx1 : v1.getD idx false = true := by
              apply hsubg
              rw [getD_set_bool]
              simp [show idx < v.length by omega]
            obtain ⟨h1c1, h1c2, h1c3⟩ := hinv2
            have hssub : bsub s (s.set idx true) := bsub_set_true s idx
            have hblackidx : blackR v1 s idx := ⟨hvidx1, hsidx⟩
            refine ⟨⟨?_, ?_, ?_⟩, hblackidx⟩
            · intro u hu
              exact h1c1 u (hssub u hu)
            · intro u t hb hedge
              by_cases hune : u = idx
              · subst hune
                have hbt : blackR v1 (s.set u true) t := hblacks t hedge
                exact black_of_superstack hssub hbt
              · have hbu : blackR v1 (s.set idx true) u := by
                  refine ⟨hb.1, ?_⟩
                  rw [getD_set_bool, if_neg (by tauto)]
                  exact hb.2
                exact black_of_superstack hssub (h1c2 u t hbu hedge)
            · intro u hb
              by_cases hune : u = idx
              · subst hune
                intro hcyc
                obtain ⟨c, hedge, hreach⟩ := Relation.TransGen.head'_iff.mp hcyc
                have hbc : blackR v1 (s.set u true) c := hblacks c hedge
                have hbu : blackR v1 (s.set u true) u :=
                  reach_black_closure rules ns v1 (s.set u true) h1c2 hbc hreach
                have h10 := hbu.2
                rw [hs1idx] at h10
                exact Bool.noConfusion h10
              · have hbu : blackR v1 (s.set idx true) u := by
                  refine ⟨hb.1, ?_⟩
                  rw [getD_set_bool, if_neg (by tauto)]
                  exact hb.2
                exact h1c3 u hbu

theorem goCalls_ad (n fuel : Nat)
    (fc : Nat → List Bool → List Bool → Option (Bool × List Bool × List Bool))
    (hbasic : fcBasic fc) (had : fcAd n fuel fc) (ts : List Nat) (v s : List Bool)
    (hts : ∀ t ∈ ts, t < n) (hlv : v.length = n) (hls : s.length = n)
    (hfuel : v.count false < fuel) : goCalls fc ts v s ≠ none := by
  induction ts generalizing v s with
  | nil => simp [goCalls]
  | cons t ts ih =>
    simp only [goCalls]
    cases hfc' : fc t v s with
    | none => exact absurd hfc' (had t v s (hts t (by simp)) hlv hls hfuel)
    | some res =>
      obtain ⟨r1, v1, s1⟩ := res
      cases r1 with
      | true => simp
      | false =>
        simp only
        obtain ⟨hsub1, hlv1, hls1, hseq⟩ := hbasic t v s false v1 s1 hfc'
        have hcount : v1.count false ≤ v.count false :=
          count_false_le_of_bsub v v1 hlv1.symm hsub1
        exact ih v1 s1 (fun t' ht' => hts t' (by simp [ht'])) (by omega) (by omega) (by omega)

theorem findCycle_ad (rules : List GN) (ns : List Bool) (n : Nat) (hn : rules.length = n)
    (hclosed : closedGraph rules ns) (fuel : Nat) : fcAd n fuel (findCycle rules ns fuel) := by
  induction fuel with
  | zero => intro idx v s _ _ _ hfuel; omega
  | succ fuel ih =>
    intro idx v s hidx hlv hls hfuel
    simp only [findCycle]
    split
    · simp
    · split
      · simp
      · next hsidx hvidx =>
        rw [Bool.not_eq_true] at hsidx hvidx
        have hcount : (v.set idx true).count false + 1 = v.count false :=
          count_false_set_true v idx (by omega) hvidx
        have hts : ∀ t ∈ getCalls (rules.getD idx dfltGN) ns, t < n := by
          intro t ht
          exact hn ▸ hclosed idx t (by omega) ht
        have hne := goCalls_ad n fuel (findCycle rules ns fuel) (findCycle_basic rules ns fuel)
          ih _ (v.set idx true) (s.set idx true) hts (by simpa using hlv) (by simpa using hls)
          (by omega)
        cases hgc : goCalls (findCycle rules ns fuel) (getCalls (rules.getD idx dfltGN) ns)
            (v.set idx true) (s.set idx true) with
        | none => exact absurd hgc hne
        | some res =>
          obtain ⟨r1, v1, s1⟩ := res
          cases r1 <;> simp

theorem goCalls_sound (rules : List GN) (ns : List Bool) (n : Nat)
    (fc : Nat → List Bool → List Bool → Option (Bool × List Bool × List Bool))
    (hbasic : fcBasic fc) (hfcS : fcSound rules ns n fc) (ts : List Nat) (p : Nat)
    (v s : List Bool) (v' s' : List Bool) (hts : ∀ t ∈ ts, edgeR rules ns p t)
    (htn : ∀ t ∈ ts, t < n) (hls : s.length = n)
    (hchain : ∀ g, s.getD g false = true → Relation.ReflTransGen (edgeR rules ns) g p)
    (h : goCalls fc ts v s = some (true, v', s')) : reachesCycleR rules ns p := by
  induction ts generalizing v with
  | nil =>
    simp only [goCalls] at h
    injection h with h
    injection h with h1 h2
    exact Bool.noConfusion h1
  | cons t ts ih =>
    simp only [goCalls] at h
    cases hfc' : fc t v s with
    | none => rw [hfc'] at h; exact Option.noConfusion h
    | some res =>
      obtain ⟨r1, v1, s1⟩ := res
      rw [hfc'] at h
      cases r1 with
      | true =>
        have hedge : edgeR rules ns p t := hts t (by simp)
        cases hst : s.getD t false with
        | true =>
          -- t is an ancestor still on the stack: an explicit cycle through t
          refine ⟨t, Relation.ReflTransGen.single hedge, ?_⟩
          exact Relation.TransGen.tail' (hchain t hst) hedge
        | false =>
          have hchain' : ∀ g, s.getD g false = true →
              Relation.ReflTransGen (edgeR rules ns) g t := by
            intro g hg
            exact Relation.ReflTransGen.tail (hchain g hg) hedge
          obtain ⟨w, hw1, hw2⟩ :=
            hfcS t v s v1 s1 (htn t (by simp)) hls hst hchain' hfc'
          exact ⟨w, Relation.ReflTransGen.trans (Relation.ReflTransGen.single hedge) hw1, hw2⟩
      | false =>
        simp only at h
        obtain ⟨hsub1, hlv1, hls1, hseq⟩ := hbasic t v s false v1 s1 hfc'
        have hseq' := hseq rfl
        subst hseq'
        exact ih v1 (fun t' ht' => hts t' (by simp [ht'])) (fun t' ht' => htn t' (by simp [ht'])) h

theorem findCycle_sound (rules : List GN) (ns : List Bool) (n : Nat) (hn : rules.length = n)
    (hclosed : closedGraph rules ns) (fuel : Nat) :
    fcSound rules ns n (findCycle rules ns fuel) := by
  induction fuel with
  | zero => intro idx v s v' s' _ _ _ _ h; exact Option.noConfusion h
  | succ fuel ih =>
    intro idx v s v' s' hidx hls hsidx hchain h
    simp only [findCycle] at h
    split at h
    · next hs => rw [hsidx] at hs; exact Bool.noConfusion hs
    · split at h
      · injection h with h
        injection h with h1 h2
        exact Bool.noConfusion h1
      · next hs hv =>
        cases hgc : goCalls (findCycle rules ns fuel) (getCalls (rules.getD idx dfltGN) ns)
            (v.set idx true) (s.set idx true) with
        | none => rw [hgc] at h; exact Option.noConfusion h
        | some res =>
          obtain ⟨r1, v1, s1⟩ := res
          rw [hgc] at h
          cases r1 with
          | false =>
            simp only at h
            injection h with h
            injection h with h1 h2
            exact Bool.noConfusion h1
          | true =>
            apply goCalls_sound rules ns n (findCycle rules ns fuel)
              (findCycle_basic rules ns fuel) ih (getCalls (rules.getD idx dfltGN) ns) idx
              (v.set idx true) (s.set idx true) v1 s1 (fun t ht => ht)
              (fun t ht => hn ▸ hclosed idx t (by omega) ht) (by simpa using hls) ?_ hgc
            intro g hg
            rw [getD_set_bool] at hg
            split at hg
            · next hcond => rw [hcond.1]
            · exact hchain g hg

theorem cycleScan_sound (rules : List GN) (ns : List Bool) (n : Nat) (hn : rules.length = n)
    (hclosed : closedGraph rules ns) (fuel : Nat) :
    ∀ (k i : Nat) (v s : List Bool), v.length = n → s.length = n →
      (∀ g, s.getD g false = false) → i + k = n → ∀ j,
      cycleScan rules ns fuel k i v s = some (some j) →
      j < n ∧ reachesCycleR rules ns j := by
  intro k
  induction k with
  | zero =>
    intro i v s _ _ _ _ j h
    simp only [cycleScan] at h
    injection h with h
    exact Option.noConfusion h
  | succ k ih =>
    intro i v s hlv hls hz hik j h
    simp only [cycleScan] at h
    cases hfc : findCycle rules ns fuel i v s with
    | none => rw [hfc] at h; exact Option.noConfusion h
    | some res =>
      obtain ⟨r1, v1, s1⟩ := res
      rw [hfc] at h
      cases r1 with
      | true =>
        simp only at h
        injection h with h
        injection h with h
        subst h
        refine ⟨by omega, ?_⟩
        exact findCycle_sound rules ns n hn hclosed fuel i v s v1 s1 (by omega) hls (hz i)
          (fun g hg => absurd hg (by rw [hz g]; simp)) hfc
      | false =>
        simp only at h
        obtain ⟨hsub1, hlv1, hls1, hseq⟩ := findCycle_basic rules ns fuel i v s false v1 s1 hfc
        have hseq' := hseq rfl
        subst hseq'
        exact ih (i + 1) v1 s1 (by omega) hls hz (by omega) j h

theorem cycleScan_complete (rules : List GN) (ns : List Bool) (n : Nat) (hn : rules.length = n)
    (hclosed : closedGraph rules ns) (fuel : Nat) :
    ∀ (k i : Nat) (v s : List Bool), v.length = n → s.length = n →
      (∀ g, s.getD g false = false) → dfsInv rules ns v s →
      (∀ j, j < i → v.getD j false = true) → i + k = n →
      cycleScan rules ns fuel k i v s = some none →
      ∀ j, j < n → ¬ Relation.TransGen (edgeR rules ns) j j := by
  intro k
  induction k with
  | zero =>
    intro i v s hlv hls hz hinv hproc hik h j hj
    exact hinv.2.2 j ⟨hproc j (by omega), hz j⟩
  | succ k ih =>
    intro i v s hlv hls hz hinv hproc hik h j hj
    simp only [cycleScan] at h
    cases hfc : findCycle rules ns fuel i v s with
    | none => rw [hfc] at h; exact Option.noConfusion h
    | some res =>
      obtain ⟨r1, v1, s1⟩ := res
      rw [hfc] at h
      cases r1 with
      | true =>
        simp only at h
        injection h with h
        exact Option.noConfusion h
      | false =>
        simp only at h
        obtain ⟨hsub1, hlv1, hls1, hseq⟩ := findCycle_basic rules ns fuel i v s false v1 s1 hfc
        have hseq' := hseq rfl
        subst hseq'
        obtain ⟨hinv1, hblack1⟩ := findCycle_false rules ns n hn hclosed fuel i v s1 v1 s1
          (by omega) hlv hls hinv hfc
        refine ih (i + 1) v1 s1 (by omega) hls hz hinv1 ?_ (by omega) h j hj
        intro j' hj'
        rcases Nat.lt_or_ge j' i with hlt | hge
        · exact hsub1 j' (hproc j' hlt)
        · have : j' = i := by omega
          subst this
          exact hblack1.1

theorem cycleScan_ad (rules : List GN) (ns : List Bool) (n : Nat) (hn : rules.length = n)
    (hclosed : closedGraph rules ns) (fuel : Nat) :
    ∀ (k i : Nat) (v s : List Bool), v.length = n → s.length = n → v.count false < fuel →
      i + k = n → cycleScan rules ns fuel k i v s ≠ none := by
  intro k
  induction k with
  | zero => intro i v s _ _ _ _; simp [cycleScan]
  | succ k ih =>
    intro i v s hlv hls hfuel hik
    simp only [cycleScan]
    cases hfc : findCycle rules ns fuel i v s with
    | none =>
      exact absurd hfc (findCycle_ad rules ns n hn hclosed fuel i v s (by omega) hlv hls hfuel)
    | some res =>
      obtain ⟨r1, v1, s1⟩ := res
      cases r1 with
      | true => simp
      | false =>
        simp only
        obtain ⟨hsub1, hlv1, hls1, hseq⟩ := findCycle_basic rules ns fuel i v s false v1 s1 hfc
        have hcount : v1.count false ≤ v.count false :=
          count_false_le_of_bsub v v1 hlv1.symm hsub1
        have hseq' := hseq rfl
        subst hseq'
        exact ih (i + 1) v1 s1 (by omega) (by omega) (by omega) (by omega)

theorem undecidable_of_cycle (rules : List GN)
    (hclosed : closedGraph rules (nullableVec rules))
    (hcyc : ∃ i, i < rules.length ∧
      Relation.TransGen (edgeR rules (nullableVec rules)) i i) :
    ∃ j, j < rules.length ∧ reachesCycleR rules (nullableVec rules) j ∧
      undecidableRuleF rules = some (some j) := by
  set n := rules.length with hn
  set ns := nullableVec rules with hns
  have hlv : (List.replicate n false).length = n := by simp
  have hz : ∀ g, (List.replicate n false).getD g false = false := fun g =>
    getD_replicate_false n g
  have hcount : (List.replicate n false).count false = n := List.count_replicate_self false n
  have hinv : dfsInv rules ns (List.replicate n false) (List.replicate n false) := by
    refine ⟨?_, ?_, ?_⟩
    · intro u hu
      rw [hz u] at hu
      exact Bool.noConfusion hu
    · intro u t hb
      rw [blackR, hz u] at hb
      exact absurd hb.1 (by simp)
    · intro u hb
      rw [blackR, hz u] at hb
      exact absurd hb.1 (by simp)
  have hne := cycleScan_ad rules ns n rfl hclosed (n + 1) n 0 (List.replicate n false)
    (List.replicate n false) hlv hlv (by omega) (by omega)
  cases hscan : cycleScan rules ns (n + 1) n 0 (List.replicate n false)
      (List.replicate n false) with
  | none => exact absurd hscan hne
  | some res =>
    cases res with
    | none =>
      exfalso
      obtain ⟨i, hi, hcyci⟩ := hcyc
      exact cycleScan_complete rules ns n rfl hclosed (n + 1) n 0 (List.replicate n false)
        (List.replicate n false) hlv hlv hz hinv (by omega) (by omega) hscan i hi hcyci
    | some j =>
      obtain ⟨hj, hreach⟩ := cycleScan_sound rules ns n rfl hclosed (n + 1) n 0
        (List.replicate n false) (List.replicate n false) hlv hlv hz (by omega) j hscan
      exact ⟨j, hj, hreach, hscan⟩

/-- C1, amended: whenever the rule table a grammar normalizes to contains a
rule that can reach itself through the non-consuming call graph, Grammar::new
rejects the grammar with Err(UndecidableRule(name)); the reported name is the
tag of the first scanned rule index from which a non-consumption cycle is
reachable, which need not be the self-reaching rule itself.  The grammar
A ::= A | "a" is rejected with UndecidableRule("A") (see the witness). -/
theorem c1_undecidable_rejection (env : Nat → GrammarNode) (fuel : Nat) (g : GrammarNode)
    (node : GN) (st : NState)
    (hrun : helper env fuel g none ⟨[], [], [], []⟩ = some (node, st))
    (hclosed : closedGraph st.rules (nullableVec st.rules))
    (hcyc : ∃ i, i < st.rules.length ∧
      Relation.TransGen (edgeR st.rules (nullableVec st.rules)) i i) :
    ∃ j, j < st.rules.length ∧ reachesCycleR st.rules (nullableVec st.rules) j ∧
      grammarNew env fuel g = some (.error (.UndecidableRule (st.tags.getD j ""))) := by
  obtain ⟨j, hj, hreach, hscan⟩ := undecidable_of_cycle st.rules hclosed hcyc
  refine ⟨j, hj, hreach, ?_⟩
  rw [grammarNew, hrun]
  simp only [hscan]

/-- C1, witness: the rejection theorem applied to A ::= A | "a", whose single
rule 0 calls itself without consuming; the grammar fails to compile with
UndecidableRule("A"). -/
theorem c1_witness :
    ∃ j, j < rulesA.length ∧ reachesCycleR rulesA (nullableVec rulesA) j ∧
      grammarNew envA 5 (.Reference 0 "A") =
        some (.error (.UndecidableRule
          ((⟨rulesA, ["A"], [(0, 0)], []⟩ : NState).tags.getD j ""))) := by
  apply c1_undecidable_rejection envA 5 (.Reference 0 "A") (.Mu 0)
    ⟨rulesA, ["A"], [(0, 0)], []⟩ rfl
  · intro u t hu hedge
    have hu0 : u = 0 := by
      simp only [rulesA, List.length_cons, List.length_nil] at hu
      omega
    subst hu0
    have hc : getCalls (rulesA.getD 0 dfltGN) (nullableVec rulesA) = [0] := by decide
    rw [edgeR, hc] at hedge
    simp at hedge
    subst hedge
    decide
  · refine ⟨0, by decide, Relation.TransGen.single ?_⟩
    show (0 : Nat) ∈ getCalls (rulesA.getD 0 dfltGN) (nullableVec rulesA)
    decide

/-- C1, counterexample: the claim as stated says the error names the
self-reaching rule.  For the grammar a ::= b, b ::= b the only non-consuming
self-edge sits on rule 1 (tagged "b"), yet Grammar::new reports
UndecidableRule("a"), the tag of the entry rule the scan started from. -/
theorem c1_counterexample :
    helper envB 5 (.Reference 0 "a") none ⟨[], [], [], []⟩ =
        some (.Mu 0, ⟨rulesB, ["a", "b"], [(1, 1), (0, 0)], []⟩) ∧
      (1 : Nat) ∈ getCalls (rulesB.getD 1 dfltGN) (nullableVec rulesB) ∧
      (⟨rulesB, ["a", "b"], [(1, 1), (0, 0)], []⟩ : NState).tags.getD 1 "" = "b" ∧
      grammarNew envB 5 (.Reference 0 "a") = some (.error (.UndecidableRule "a")) ∧
      "a" ≠ "b" := by
  refine ⟨rfl, by decide, rfl, rfl, by decide⟩

theorem getD_set_any {α : Type} (l : List α) (i j : Nat) (b d : α) :
    (l.set i b).getD j d = if j = i ∧ i < l.length then b else l.getD j d := by
  induction l generalizing i j with
  | nil => simp
  | cons a l ih =>
    cases i with
    | zero =>
      cases j with
      | zero => simp
      | succ j => simp
    | succ i =>
      cases j with
      | zero => simp
      | succ j =>
        simp only [List.set_cons_succ, List.getD_cons_succ, List.length_cons]
        rw [ih i j]
        by_cases hj : j = i ∧ i < l.length
        · simp [hj, hj.1, hj.2, Nat.succ_lt_succ hj.2]
        · have h2 : ¬(j + 1 = i + 1 ∧ i + 1 < l.length + 1) := by omega
          simp [hj, h2]

theorem mapExt_refl (m : List (Nat × Nat)) : mapExt m m := fun _ _ h => h

theorem mapExt_trans {a b c : List (Nat × Nat)} (h1 : mapExt a b) (h2 : mapExt b c) :
    mapExt a c := fun p i h => h2 p i (h1 p i h)

theorem InvN_mono_len (st st' : NState) (hmap : st.ruleMap = st'.ruleMap)
    (hlen : st.rules.length ≤ st'.rules.length) (h : InvN st) : InvN st' := by
  obtain ⟨hb, hj⟩ := h
  constructor
  · intro p i hp
    rw [← hmap] at hp
    have := hb p i hp
    omega
  · intro p q i hp hq
    rw [← hmap] at hp hq
    exact hj p q i hp hq

mutual
theorem normGo_stable (rh : RefHandler) (hrh : RHOk rh) :
    ∀ (g : GrammarNode) (pn : Option String) (st : NState) (gn : GN) (st' : NState),
      normGo rh g pn st = some (gn, st') →
      mapExt st.ruleMap st'.ruleMap ∧ st.rules.length ≤ st'.rules.length ∧
        (InvN st → InvN st')
  | .Terminal m, pn, st, gn, st', h => by
    simp only [normGo] at h
    injection h with h
    injection h with h1 h2
    subst h2
    exact ⟨mapExt_refl _, le_refl _, fun hi => hi⟩
  | .Choice cs, pn, st, gn, st', h => by
    simp only [normGo] at h
    cases hl : normList rh cs pn st with
    | none => rw [hl] at h; exact Option.noConfusion h
    | some res =>
      obtain ⟨gs, st1⟩ := res
      rw [hl] at h
      injection h with h
      injection h with h1 h2
      subst h2
      exact normList_stable rh hrh cs pn st gs _ hl
  | .Sequence cs, pn, st, gn, st', h => by
    simp only [normGo] at h
    cases hl : normList rh cs pn st with
    | none => rw [hl] at h; exact Option.noConfusion h
    | some res =>
      obtain ⟨gs, st1⟩ := res
      rw [hl] at h
      injection h with h
      injection h with h1 h2
      subst h2
      exact normList_stable rh hrh cs pn st gs _ hl
  | .Reference r name, pn, st, gn, st', h => by
    simp only [normGo] at h
    split at h
    · cases hm : mapLookup r st.ruleMap with
      | none => rw [hm] at h; exact Option.noConfusion h
      | some i =>
        rw [hm] at h
        injection h with h
        injection h with h1 h2
        subst h2
        exact ⟨mapExt_refl _, le_refl _, fun hi => hi⟩
    · cases hm : mapLookup r st.ruleMap with
      | some i =>
        rw [hm] at h
        injection h with h
        injection h with h1 h2
        subst h2
        exact ⟨mapExt_refl _, le_refl _, fun hi => hi⟩
      | none =>
        rw [hm] at h
        obtain ⟨ha, hb, hc, -⟩ := hrh r name pn st gn st' h hm
        exact ⟨ha, hb, hc⟩
  | .Optional inner, pn, st, gn, st', h => by
    simp only [normGo] at h
    cases hi : normGo rh inner pn st with
    | none => rw [hi] at h; exact Option.noConfusion h
    | some res =>
      obtain ⟨g1, st1⟩ := res
      rw [hi] at h
      injection h with h
      injection h with h1 h2
      subst h2
      exact normGo_stable rh hrh inner pn st g1 _ hi
  | .Many inner, pn, st, gn, st', h => by
    simp only [normGo] at h
    cases hi : normGo rh inner (some ("_" ++ pn.getD "anonymous"))
        { st with tags := st.tags ++ ["_" ++ pn.getD "anonymous"],
                  rules := st.rules ++ [GN.Terminal .EndOfInput] } with
    | none => rw [hi] at h; exact Option.noConfusion h
    | some res =>
      obtain ⟨g1, st2⟩ := res
      rw [hi] at h
      injection h with h
      injection h with h1 h2
      subst h2
      obtain ⟨hm, hl, hinv⟩ := normGo_stable rh hrh inner _ _ g1 st2 hi
      simp only [List.length_append, List.length_singleton] at hl
      refine ⟨hm, by simp; omega, ?_⟩
      intro hi0
      exact InvN_mono_len st2 _ (by rfl) (by simp)
        (hinv (InvN_mono_len st _ (by rfl) (by simp) hi0))
  | .Some inner, pn, st, gn, st', h => by
    simp only [normGo] at h
    cases hi : normGo rh inner (some (pn.getD "anonymous" ++ "_some_elem"))
        { st with tags := st.tags ++ [pn.getD "anonymous" ++ "_some_elem"],
                  rules := st.rules ++ [GN.Terminal .EndOfInput] } with
    | none => rw [hi] at h; exact Option.noConfusion h
    | some res =>
      obtain ⟨g1, st2⟩ := res
      rw [hi] at h
      injection h with h
      injection h with h1 h2
      subst h2
      obtain ⟨hm, hl, hinv⟩ := normGo_stable rh hrh inner _ _ g1 st2 hi
      simp only [List.length_append, List.length_singleton] at hl
      refine ⟨hm, by simp; omega, ?_⟩
      intro hi0
      exact InvN_mono_len st2 _ (by rfl) (by simp)
        (hinv (InvN_mono_len st _ (by rfl) (by simp) hi0))

theorem normList_stable (rh : RefHandler) (hrh : RHOk rh) :
    ∀ (cs : List GrammarNode) (pn : Option String) (st : NState) (gs : List GN) (st' : NState),
      normList rh cs pn st = some (gs, st') →
      mapExt st.ruleMap st'.ruleMap ∧ st.rules.length ≤ st'.rules.length ∧
        (InvN st → InvN st')
  | [], pn, st, gs, st', h => by
    simp only [normList] at h
    injection h with h
    injection h with h1 h2
    subst h2
    exact ⟨mapExt_refl _, le_refl _, fun hi => hi⟩
  | c :: cs, pn, st, gs, st', h => by
    simp only [normList] at h
    cases hc : normGo rh c pn st with
    | none => rw [hc] at h; exact Option.noConfusion h
    | some res =>
      obtain ⟨g1, st1⟩ := res
      rw [hc] at h
      simp only at h
      cases hcs : normList rh cs pn st1 with
      | none => rw [hcs] at h; exact Option.noConfusion h
      | some res2 =>
        obtain ⟨gs2, st2⟩ := res2
        rw [hcs] at h
        injection h with h
        injection h with h1 h2
        subst h2
        obtain ⟨hm1, hl1, hi1⟩ := normGo_stable rh hrh c pn st g1 st1 hc
        obtain ⟨hm2, hl2, hi2⟩ := normList_stable rh hrh cs pn st1 gs2 _ hcs
        exact ⟨mapExt_trans hm1 hm2, le_trans hl1 hl2, fun hi => hi2 (hi1 hi)⟩
end

theorem mapLookup_cons_self (r idx : Nat) (m : List (Nat × Nat)) :
    mapLookup r ((r, idx) :: m) = some idx := by
  simp [mapLookup]

theorem mapLookup_cons_other (p r idx : Nat) (m : List (Nat × Nat)) (h : p ≠ r) :
    mapLookup p ((r, idx) :: m) = mapLookup p m := by
  simp [mapLookup, h]

theorem InvN_insert (st : NState) (r : Nat) (hnone : mapLookup r st.ruleMap = none)
    (st1 : NState) (hmap : st1.ruleMap = (r, st.rules.length) :: st.ruleMap)
    (hlen : st.rules.length < st1.rules.length) (h : InvN st) : InvN st1 := by
  obtain ⟨hb, hj⟩ := h
  constructor
  · intro p i hp
    rw [hmap] at hp
    by_cases hpr : p = r
    · rw [hpr, mapLookup_cons_self] at hp
      injection hp with hp
      omega
    · rw [mapLookup_cons_other p r _ _ hpr] at hp
      have := hb p i hp
      omega
  · intro p q i hp hq
    rw [hmap] at hp hq
    by_cases hpr : p = r
    · rw [hpr, mapLookup_cons_self] at hp
      injection hp with hp
      by_cases hqr : q = r
      · rw [hpr, hqr]
      · rw [mapLookup_cons_other q r _ _ hqr] at hq
        have := hb q i hq
        omega
    · rw [mapLookup_cons_other p r _ _ hpr] at hp
      by_cases hqr : q = r
      · rw [hqr, mapLookup_cons_self] at hq
        injection hq with hq
        have := hb p i hp
        omega
      · rw [mapLookup_cons_other q r _ _ hqr] at hq
        exact hj p q i hp hq

theorem refExpand_ok (env : Nat → GrammarNode) (fuel : Nat) : RHOk (refExpand env fuel) := by
  induction fuel with
  | zero => intro r name pn st g st' h _; exact Option.noConfusion h
  | succ fuel ih =>
    intro r name pn st g st' h hnone
    simp only [refExpand] at h
    cases hgo : normGo (refExpand env fuel) (env r) (some name)
        { st with ruleMap := (r, st.rules.length) :: st.ruleMap,
                  tags := st.tags ++ [name],
                  rules := st.rules ++ [GN.Terminal .EndOfInput],
                  stack := r :: st.stack } with
    | none => rw [hgo] at h; exact Option.noConfusion h
    | some res =>
      obtain ⟨g2, st2⟩ := res
      rw [hgo] at h
      injection h with h
      injection h with h1 h2
      subst h1
      subst h2
      obtain ⟨hm, hl, hinv⟩ := normGo_stable (refExpand env fuel) ih (env r) _ _ g2 st2 hgo
      simp only [List.length_append, List.length_singleton] at hl
      refine ⟨?_, ?_, ?_, ?_⟩
      · intro p i hp
        have hpr : p ≠ r := by
          intro hpe
          subst hpe
          rw [hnone] at hp
          exact Option.noConfusion hp
        have hp1 : mapLookup p ((r, st.rules.length) :: st.ruleMap) = some i := by
          rw [mapLookup_cons_other p r _ _ hpr]
          exact hp
        exact hm p i hp1
      · simp only []
        have h1 : (st2.rules.set st.rules.length (.Tagged st.rules.length g2)).length =
            st2.rules.length := by simp
        omega
      · intro hi0
        have hinv2 := hinv (InvN_insert st r hnone _ (by rfl) (by simp) hi0)
        exact InvN_mono_len st2 _ (by rfl) (by simp) hinv2
      · refine ⟨st.rules.length, rfl, ?_⟩
        simp only []
        apply hm
        exact mapLookup_cons_self r st.rules.length st.ruleMap

theorem ref_second (env : Nat → GrammarNode) (fuel2 : Nat) (r : Nat) (name2 : String)
    (pn2 : Option String) (st2 : NState) (gn2 : GN) (st2' : NState) (i : Nat)
    (hlook : mapLookup r st2.ruleMap = some i)
    (h : helper env fuel2 (.Reference r name2) pn2 st2 = some (gn2, st2')) : gn2 = .Mu i := by
  simp only [helper, normGo] at h
  split at h
  · rw [hlook] at h
    injection h with h
    injection h with h1 h2
    exact h1.symm
  · rw [hlook] at h
    injection h with h
    injection h with h1 h2
    exact h1.symm

/-- C6: each distinct rule handle owns exactly one slot of the rule table:
normalizing a Reference yields a back-reference Mu i with the handle bound to
i in the final map, distinct handles are never bound to the same slot, and
any later normalization of a Reference with the same handle (from any state
whose map extends the current one, as every later state of the same run
does) yields the same index i, whether the slot is still being expanded or
already complete. -/
theorem c6_rule_unification (env : Nat → GrammarNode) (fuel : Nat) (r : Nat) (name : String)
    (pn : Option String) (st : NState) (gn : GN) (st' : NState) (hinv : InvN st)
    (h : helper env fuel (.Reference r name) pn st = some (gn, st')) :
    ∃ i, gn = .Mu i ∧ mapLookup r st'.ruleMap = some i ∧ i < st'.rules.length ∧
      (∀ p q k, mapLookup p st'.ruleMap = some k → mapLookup q st'.ruleMap = some k → p = q) ∧
      ∀ (fuel2 : Nat) (name2 : String) (pn2 : Option String) (st2 : NState) (gn2 : GN)
        (st2' : NState), mapExt st'.ruleMap st2.ruleMap →
        helper env fuel2 (.Reference r name2) pn2 st2 = some (gn2, st2') →
        gn2 = .Mu i := by
  have hstable := normGo_stable (refExpand env fuel) (refExpand_ok env fuel)
    (.Reference r name) pn st gn st' h
  simp only [helper, normGo] at h
  split at h
  · cases hm : mapLookup r st.ruleMap with
    | none => rw [hm] at h; exact Option.noConfusion h
    | some i =>
      rw [hm] at h
      injection h with h
      injection h with h1 h2
      subst h2
      refine ⟨i, h1.symm, hm, hinv.1 r i hm, hinv.2, ?_⟩
      intro fuel2 name2 pn2 st2 gn2 st2' hext h2
      exact ref_second env fuel2 r name2 pn2 st2 gn2 st2' i (hext r i hm) h2
  · cases hm : mapLookup r st.ruleMap with
    | some i =>
      rw [hm] at h
      injection h with h
      injection h with h1 h2
      subst h2
      refine ⟨i, h1.symm, hm, hinv.1 r i hm, hinv.2, ?_⟩
      intro fuel2 name2 pn2 st2 gn2 st2' hext h2
      exact ref_second env fuel2 r name2 pn2 st2 gn2 st2' i (hext r i hm) h2
    | none =>
      rw [hm] at h
      obtain ⟨ha, hb, hc, i, hgn, hlook⟩ :=
        refExpand_ok env fuel r name pn st gn st' h hm
      have hinv' : InvN st' := hc hinv
      refine ⟨i, hgn, hlook, hinv'.1 r i hlook, hinv'.2, ?_⟩
      intro fuel2 name2 pn2 st2 gn2 st2' hext h2
      exact ref_second env fuel2 r name2 pn2 st2 gn2 st2' i (hext r i hlook) h2

/-- C6, witness: the unification statement evaluated on a one-rule grammar
normalized from the empty state. -/
theorem c6_witness :
    ∃ i, (GN.Mu 0) = GN.Mu i ∧
      mapLookup 0 (⟨[.Tagged 0 (.Terminal (.str []))], ["R"], [(0, 0)], []⟩ : NState).ruleMap =
        some i ∧
      i < (⟨[.Tagged 0 (.Terminal (.str []))], ["R"], [(0, 0)], []⟩ : NState).rules.length ∧
      (∀ p q k,
        mapLookup p (⟨[.Tagged 0 (.Terminal (.str []))], ["R"], [(0, 0)], []⟩ : NState).ruleMap =
          some k →
        mapLookup q (⟨[.Tagged 0 (.Terminal (.str []))], ["R"], [(0, 0)], []⟩ : NState).ruleMap =
          some k → p = q) ∧
      ∀ (fuel2 : Nat) (name2 : String) (pn2 : Option String) (st2 : NState) (gn2 : GN)
        (st2' : NState),
        mapExt (⟨[.Tagged 0 (.Terminal (.str []))], ["R"], [(0, 0)], []⟩ : NState).ruleMap
          st2.ruleMap →
        helper envT fuel2 (.Reference 0 name2) pn2 st2 = some (gn2, st2') →
        gn2 = .Mu i := by
  apply c6_rule_unification envT 3 0 "R" none ⟨[], [], [], []⟩ (.Mu 0)
    ⟨[.Tagged 0 (.Terminal (.str []))], ["R"], [(0, 0)], []⟩
  · constructor
    · intro p i hp
      simp [mapLookup] at hp
    · intro p q i hp hq
      simp [mapLookup] at hp
  · rfl

/-- C5, counterexample: the epsilon node the normalizer produces is the
empty-string Terminal, not an empty Sequence, and some("") — an element that
is itself nullable — normalizes to a root that IS nullable, against the
claim that some(x) is never nullable. -/
theorem c5_counterexample :
    helper envT 3 (.Optional (.Terminal (.str ['a']))) none ⟨[], [], [], []⟩ =
        some (.Choice [.Terminal (.str ['a']), .Terminal (.str [])], ⟨[], [], [], []⟩) ∧
      (GN.Terminal (.str []) ≠ GN.Sequence []) ∧
      helper envT 3 (.Some (.Terminal (.str []))) none ⟨[], [], [], []⟩ =
        some (.Sequence [.Mu 0, .Mu 1],
          ⟨rulesS, ["anonymous_some_elem", "_anonymous"], [], []⟩) ∧
      isNullableN (.Sequence [.Mu 0, .Mu 1]) (nullableVec rulesS) = true := by
  refine ⟨rfl, fun h => GN.noConfusion h, rfl, by decide⟩

/-- C5, amended: Optional(x) desugars to Choice[x', Terminal("")] with the
empty-string terminal as the epsilon node; Many(x) synthesizes one fresh
rule M with body Choice[Sequence[x', Mu M], Terminal("")] and normalizes to
Mu M; Some(x) synthesizes an element rule E wrapping x' and a tail rule M
with body Choice[Sequence[Mu E, Mu M], Terminal("")], normalizing to
Sequence[Mu E, Mu M].  Consequently the Many body is nullable under every
flag vector (so many(x) is always nullable, and at the fixpoint the
synthesized rule's flag is true), while the nullability of
Sequence[Mu E, Mu M] is the conjunction of the two flags, so some(x) is
nullable exactly when its element rule is — not nullable whenever x' is
not. -/
theorem c5_desugaring (rh : RefHandler) (hrh : RHOk rh) (x : GrammarNode)
    (pn : Option String) (st : NState) (g : GN) (st2 : NState) :
    (normGo rh x pn st = some (g, st2) →
      normGo rh (.Optional x) pn st = some (.Choice [g, .Terminal (.str [])], st2)) ∧
    (normGo rh x (some ("_" ++ pn.getD "anonymous"))
        { st with tags := st.tags ++ ["_" ++ pn.getD "anonymous"],
                  rules := st.rules ++ [GN.Terminal .EndOfInput] } = some (g, st2) →
      ∃ st3 : NState, normGo rh (.Many x) pn st = some (.Mu st.rules.length, st3) ∧
        st3.rules.getD st.rules.length dfltGN =
          .Tagged st.rules.length
            (.Choice [.Sequence [g, .Mu st.rules.length], .Terminal (.str [])])) ∧
    (normGo rh x (some (pn.getD "anonymous" ++ "_some_elem"))
        { st with tags := st.tags ++ [pn.getD "anonymous" ++ "_some_elem"],
                  rules := st.rules ++ [GN.Terminal .EndOfInput] } = some (g, st2) →
      ∃ st4 : NState, normGo rh (.Some x) pn st =
          some (.Sequence [.Mu st.rules.length, .Mu st2.rules.length], st4) ∧
        st4.rules.getD st.rules.length dfltGN = .Tagged st.rules.length g ∧
        st4.rules.getD st2.rules.length dfltGN =
          .Tagged st2.rules.length
            (.Choice [.Sequence [.Mu st.rules.length, .Mu st2.rules.length],
              .Terminal (.str [])])) ∧
    (∀ (ns : List Bool) (cs0 : List GN),
      isNullableN (.Choice [.Sequence cs0, .Terminal (.str [])]) ns = true) ∧
    (∀ (rules : List GN) (m1 : Nat) (cs0 : List GN), m1 < rules.length →
      rules.getD m1 dfltGN = .Tagged m1 (.Choice [.Sequence cs0, .Terminal (.str [])]) →
      (nullableVec rules).getD m1 false = true) ∧
    (∀ (ns : List Bool) (e m1 : Nat),
      isNullableN (.Sequence [.Mu e, .Mu m1]) ns =
        ((ns.getD e false) && (ns.getD m1 false))) := by
  refine ⟨?_, ?_, ?_, ?_, ?_, ?_⟩
  · intro h
    simp [normGo, h]
  · intro h
    obtain ⟨-, hl, -⟩ := normGo_stable rh hrh x _ _ g st2 h
    simp only [List.length_append, List.length_singleton] at hl
    simp only [normGo, h]
    refine ⟨_, rfl, ?_⟩
    rw [getD_set_any]
    rw [if_pos ⟨rfl, by omega⟩]
  · intro h
    obtain ⟨-, hl, -⟩ := normGo_stable rh hrh x _ _ g st2 h
    simp only [List.length_append, List.length_singleton] at hl
    simp only [normGo, h]
    rw [show (st2.rules.set st.rules.length (GN.Tagged st.rules.length g)).length =
      st2.rules.length from by simp]
    refine ⟨_, rfl, ?_, ?_⟩
    · rw [getD_set_any]
      rw [if_neg (by simp only [List.length_append, List.length_set, List.length_singleton]; omega)]
      rw [List.getD_append _ _ _ _ (by simp only [List.length_set]; omega)]
      rw [getD_set_any]
      rw [if_pos ⟨rfl, by omega⟩]
    · rw [getD_set_any]
      rw [if_pos ⟨rfl, by simp only [List.length_append, List.length_set, List.length_singleton]; omega⟩]
  · intro ns cs0
    simp [isNullableN, anyNullable, Matcher.isNullable]
  · intro rules m1 cs0 hm1 hbody
    rw [nullableVec_fix_eq rules m1 hm1, hbody]
    simp [isNullableN, anyNullable, Matcher.isNullable]
  · intro ns e m1
    simp [isNullableN, allNullable]

/-- C5, witness: the desugaring equations applied at a concrete terminal and
the nullability consequence applied at the synthesized table of some(""). -/
theorem c5_witness :
    normGo (refExpand envT 0) (.Optional (.Terminal (.str ['a']))) none ⟨[], [], [], []⟩ =
        some (.Choice [.Terminal (.str ['a']), .Terminal (.str [])], ⟨[], [], [], []⟩) ∧
      (nullableVec rulesS).getD 1 false = true :=
  ⟨(c5_desugaring (refExpand envT 0) (refExpand_ok envT 0) (.Terminal (.str ['a'])) none
      ⟨[], [], [], []⟩ (.Terminal (.str ['a'])) ⟨[], [], [], []⟩).1 rfl,
   (c5_desugaring (refExpand envT 0) (refExpand_ok envT 0) (.Terminal (.str ['a'])) none
      ⟨[], [], [], []⟩ (.Terminal (.str ['a'])) ⟨[], [], [], []⟩).2.2.2.2.1 rulesS 1
      [.Mu 0, .Mu 1] (by decide) rfl⟩
